import Mathlib

set_option maxRecDepth 10000

namespace DupeCli

/-!
Shallow embedding of the dupe-cli duplicate-file finder
(src/internal/{matcher,fs,hash,scanner,engine} and src/cmd/dupe-cli).
Go strings are modelled as Lean strings; Go `len` on a string is the
UTF-8 byte count; Go `for range` over a string iterates runes, modelled
by `String.data`.  Go `int`/`int64` values are non-negative in every
code path modelled here and are embedded as `Nat` (file sizes, which the
code compares but never subtracts, are embedded as `Int` to keep the
`int64` reading).
-/

/-- Go `len(s)` for a string: the number of UTF-8 bytes. -/
def goLen (s : String) : Nat := (s.data.map Char.utf8Size).sum

/-- Helper for `goContains`: does the pattern occur as a contiguous
sublist (at rune granularity; UTF-8 is self-synchronizing, so byte-level
`strings.Contains` agrees with rune-level containment)? -/
def containsSub : List Char → List Char → Bool
  | [], p => p.isEmpty
  | l@(_ :: t), p => p.isPrefixOf l || containsSub t p

/-- Go `strings.Contains(s, sub)`. -/
def goContains (s sub : String) : Bool := containsSub s.data sub.data

/-- Go `strings.ContainsRune(s, c)`. -/
def goContainsRune (s : String) (c : Char) : Bool := s.data.contains c

/-- matcher.go `isNumeric`: every rune is a digit and the string is
nonempty (`unicode.IsDigit`, restricted to the decimal digits that can
actually occur in the lowercased ASCII tokens this tool compares). -/
def isNumeric (s : String) : Bool := s.data.all Char.isDigit && !s.data.isEmpty

/-- matcher.go `max`. -/
def goMax (a b : Nat) : Nat := if a > b then a else b

/-- matcher.go `isSimilar`: substring containment either way, or both
numeric of equal byte length, or at least 70% of the runes of `word1`
occur in `word2` relative to the longer byte length. -/
def isSimilar (word1 word2 : String) : Bool :=
  if goContains word1 word2 || goContains word2 word1 then true
  else if isNumeric word1 && isNumeric word2 && goLen word1 == goLen word2 then true
  else
    let commonChars := (word1.data.filter fun c => goContainsRune word2 c).length
    let similarity := commonChars * 100 / goMax (goLen word1) (goLen word2)
    similarity ≥ 70

/-- matcher.go `MatchType`. -/
inductive MatchType where
  | exact
  | fuzzy
deriving DecidableEq, Repr

/-- matcher.go `MatchOptions`. -/
structure MatchOptions where
  matchType : MatchType
  minMatchPercent : Nat
  weightByLength : Bool
  matchSimilar : Bool
deriving DecidableEq, Repr

/-- The per-token test of the inner loop of `compareWords`: the current
word of `first` consumes a word of `secondCopy` if they are equal, or if
`MatchSimilar` is set and `isSimilar` holds (the `!found` conjunct in
the Go source is always true at that point, since `break` follows every
assignment of `found`). -/
def wordMatches (opts : MatchOptions) (w w2 : String) : Bool :=
  w == w2 || (opts.matchSimilar && isSimilar w w2)

/-- The inner loop of `compareWords`: scan `secondCopy` left to right
and remove the first word consumed by `w`; `none` when no word matches. -/
def removeFirstMatch (opts : MatchOptions) (w : String) : List String → Option (List String)
  | [] => none
  | x :: xs =>
    if wordMatches opts w x then some xs
    else match removeFirstMatch opts w xs with
      | some ys => some (x :: ys)
      | none => none

/-- Weight contributed by a matched word (`len(word)` when weighting by
length, else 1). -/
def wordWeight (opts : MatchOptions) (w : String) : Nat :=
  if opts.weightByLength then goLen w else 1

/-- The outer loop of `compareWords`: fold over `first`, threading the
shrinking `secondCopy` and accumulating `matchCount`. -/
def matchedWeight (opts : MatchOptions) : List String → List String → Nat
  | [], _ => 0
  | w :: ws, sec =>
    match removeFirstMatch opts w sec with
    | some sec' => wordWeight opts w + matchedWeight opts ws sec'
    | none => matchedWeight opts ws sec

/-- The `totalCount` of `compareWords`: summed byte lengths of all words
of both lists when weighting by length, else the total word count. -/
def totalWeight (opts : MatchOptions) (first second : List String) : Nat :=
  if opts.weightByLength then (first.map goLen).sum + (second.map goLen).sum
  else first.length + second.length

/-- matcher.go `compareWords`: 0 when either list is empty, otherwise
`matchCount*2*100/totalCount` (Go integer division) clamped to 100, and
0 when `totalCount` is 0. -/
def compareWords (opts : MatchOptions) (first second : List String) : Nat :=
  if first.length = 0 ∨ second.length = 0 then 0
  else
    let totalCount := totalWeight opts first second
    let matchCount := matchedWeight opts first second
    if 0 < totalCount then
      let percentage := matchCount * 2 * 100 / totalCount
      if percentage > 100 then 100 else percentage
    else 0

/-- The matcher options built by `runScan` in cmd/dupe-cli/main.go for a
standard (fuzzy) scan: weighting by length and similar-word matching are
always enabled. -/
def cliFuzzyOptions (minMatch : Nat) : MatchOptions :=
  { matchType := .fuzzy, minMatchPercent := minMatch,
    weightByLength := true, matchSimilar := true }

/-- Matcher options with similar-word matching disabled (the regime in
which the greedy scorer is in fact symmetric). -/
def plainFuzzyOptions : MatchOptions :=
  { matchType := .fuzzy, minMatchPercent := 80,
    weightByLength := true, matchSimilar := false }

/-! Symmetry of the greedy scorer when `MatchSimilar` is off: in that
case the inner loop consumes exactly the first occurrence of an equal
word, so the matched words form the multiset intersection of the two
token lists, which is commutative. -/

theorem wordMatches_of_not_similar {opts : MatchOptions} (h : opts.matchSimilar = false)
    (w x : String) : wordMatches opts w x = (w == x) := by
  simp [wordMatches, h]

theorem removeFirstMatch_of_mem {opts : MatchOptions} (h : opts.matchSimilar = false)
    {w : String} : ∀ {sec : List String}, w ∈ sec →
    removeFirstMatch opts w sec = some (sec.erase w) := by
  intro sec hm
  induction sec with
  | nil => cases hm
  | cons x xs ih =>
    by_cases hwx : w = x
    · subst hwx
      simp [removeFirstMatch, wordMatches_of_not_similar h, List.erase_cons]
    · have hx : (x == w) = false := by simp [Ne.symm hwx]
      have hmem : w ∈ xs := by
        cases hm with
        | head => exact absurd rfl hwx
        | tail _ h2 => exact h2
      simp [removeFirstMatch, wordMatches_of_not_similar h, hwx, ih hmem,
        List.erase_cons, hx]

theorem removeFirstMatch_of_not_mem {opts : MatchOptions} (h : opts.matchSimilar = false)
    {w : String} : ∀ {sec : List String}, w ∉ sec →
    removeFirstMatch opts w sec = none := by
  intro sec hm
  induction sec with
  | nil => rfl
  | cons x xs ih =>
    have hwx : ¬w = x := fun he => hm (he ▸ List.mem_cons_self x xs)
    have hmem : w ∉ xs := fun h2 => hm (List.mem_cons_of_mem x h2)
    simp [removeFirstMatch, wordMatches_of_not_similar h, hwx, ih hmem]

theorem matchedWeight_eq_inter {opts : MatchOptions} (h : opts.matchSimilar = false) :
    ∀ (first second : List String),
      matchedWeight opts first second =
        (((first : Multiset String) ∩ (second : Multiset String)).map
          (wordWeight opts)).sum := by
  intro first
  induction first with
  | nil =>
    intro second
    simp [matchedWeight, Multiset.coe_nil, Multiset.zero_inter]
  | cons w ws ih =>
    intro second
    by_cases hw : w ∈ second
    · have hco : ((w :: ws : List String) : Multiset String) ∩ (second : Multiset String)
          = w ::ₘ ((ws : Multiset String) ∩ (second : Multiset String).erase w) := by
        rw [← Multiset.cons_coe]
        exact Multiset.cons_inter_of_pos _ (Multiset.mem_coe.mpr hw)
      simp only [matchedWeight, removeFirstMatch_of_mem h hw]
      rw [hco, Multiset.map_cons, Multiset.sum_cons, Multiset.coe_erase,
        ih (second.erase w)]
    · have hco : ((w :: ws : List String) : Multiset String) ∩ (second : Multiset String)
          = (ws : Multiset String) ∩ (second : Multiset String) := by
        rw [← Multiset.cons_coe]
        exact Multiset.cons_inter_of_neg _ (fun hc => hw (Multiset.mem_coe.mp hc))
      simp only [matchedWeight, removeFirstMatch_of_not_mem h hw]
      rw [hco, ih second]

theorem matchedWeight_comm {opts : MatchOptions} (h : opts.matchSimilar = false)
    (first second : List String) :
    matchedWeight opts first second = matchedWeight opts second first := by
  rw [matchedWeight_eq_inter h, matchedWeight_eq_inter h, Multiset.inter_comm]

theorem totalWeight_comm (opts : MatchOptions) (first second : List String) :
    totalWeight opts first second = totalWeight opts second first := by
  unfold totalWeight
  by_cases hb : opts.weightByLength <;> simp [hb, Nat.add_comm]

theorem compareWords_comm {opts : MatchOptions} (h : opts.matchSimilar = false)
    (first second : List String) :
    compareWords opts first second = compareWords opts second first := by
  unfold compareWords
  rw [matchedWeight_comm h, totalWeight_comm]
  by_cases h1 : first.length = 0 <;> by_cases h2 : second.length = 0 <;>
    simp [h1, h2]

/-- Claim C2 counterexample: with the options the CLI actually uses
(`WeightByLength` and `MatchSimilar` both true), the greedy score is not
symmetric: `isSimilar "aa" "ab"` holds (both runes of "aa" occur in
"ab") but `isSimilar "ab" "aa"` fails ('b' does not occur in "aa"), so
the token lists ["aa"] and ["ab"] — extracted from filenames "aa.txt"
and "ab.txt" — score 100 one way and 0 the other. -/
theorem compareWords_not_symmetric_cex :
    compareWords (cliFuzzyOptions 80) ["aa"] ["ab"] = 100 ∧
    compareWords (cliFuzzyOptions 80) ["ab"] ["aa"] = 0 := by
  constructor <;> decide

/-- Claim C2 (amended): the fuzzy-mode score is symmetric whenever the
`MatchSimilar` option is disabled (exact-token greedy matching); with
`MatchSimilar` enabled — as the CLI always does — symmetry fails. -/
theorem compareWords_symmetric_without_matchSimilar (opts : MatchOptions)
    (h : opts.matchSimilar = false) (first second : List String) :
    compareWords opts first second = compareWords opts second first :=
  compareWords_comm h first second

theorem compareWords_symmetric_without_matchSimilar_witness :
    plainFuzzyOptions.matchSimilar = false ∧
    compareWords plainFuzzyOptions ["ab", "zz"] ["zz"] =
      compareWords plainFuzzyOptions ["zz"] ["ab", "zz"] :=
  ⟨rfl, compareWords_symmetric_without_matchSimilar plainFuzzyOptions rfl _ _⟩

/-! The final-percentage formula. The Go code computes
`matchCount*2*100/totalCount` with integer (floor) division and clamps
at 100; the spec's `round(...)` (round to nearest) differs from floor on
remainders of at least half the denominator. -/

/-- Written from the spec's words, for comparison with the code: the
final percentage as `round(matchedWeight * 2 * 100 / denominator)`
(round half up, computed as `floor((2*num + denom) / (2*denom))`),
clamped to 100. -/
def specRoundedPercentage (matchedW denom : Nat) : Nat :=
  min ((matchedW * 2 * 100 * 2 + denom) / (denom * 2)) 100

/-- Claim C3 counterexample: for token lists ["ab"] and ["abcd"] under
the CLI options, the matched weight is 2 and the denominator 6, so the
spec's rounded value is `round(400/6) = round(66.67) = 67`, but the code
returns the floor, 66. -/
theorem fuzzy_percentage_round_cex :
    compareWords (cliFuzzyOptions 80) ["ab"] ["abcd"] = 66 ∧
    matchedWeight (cliFuzzyOptions 80) ["ab"] ["abcd"] = 2 ∧
    totalWeight (cliFuzzyOptions 80) ["ab"] ["abcd"] = 6 ∧
    specRoundedPercentage 2 6 = 67 := by
  refine ⟨by decide, by decide, by decide, by decide⟩

/-- Claim C3 (amended): for every pair of non-empty token lists the
fuzzy percentage equals `matchedWeight * 2 * 100 / denominator` with
integer floor division (not rounding to nearest), clamped to 100, where
the denominator is the summed token byte lengths of both files when
weighting by length and the total token count otherwise; the result is
always in [0, 100]. -/
theorem fuzzy_percentage_formula (opts : MatchOptions) (first second : List String) :
    compareWords opts first second ≤ 100 ∧
    (first ≠ [] → second ≠ [] →
      compareWords opts first second =
        min (matchedWeight opts first second * 2 * 100
          / totalWeight opts first second) 100) := by
  constructor
  · simp only [compareWords]
    split
    · exact Nat.zero_le _
    · split
      · split
        · exact le_refl 100
        · rename_i hcl
          exact Nat.le_of_not_lt hcl
      · exact Nat.zero_le _
  · intro h1 h2
    have l1 : ¬first.length = 0 := by simpa using h1
    have l2 : ¬second.length = 0 := by simpa using h2
    simp only [compareWords]
    rw [if_neg (by push_neg; exact ⟨l1, l2⟩)]
    split
    · split
      · rename_i hcl
        exact (Nat.min_eq_right (Nat.le_of_lt hcl)).symm
      · rename_i hcl
        exact (Nat.min_eq_left (Nat.le_of_not_lt hcl)).symm
    · rename_i hz
      have ht : totalWeight opts first second = 0 := Nat.eq_zero_of_not_pos hz
      simp [ht]

theorem fuzzy_percentage_formula_witness :
    (["ab"] : List String) ≠ [] ∧ (["abcd"] : List String) ≠ [] ∧
    compareWords (cliFuzzyOptions 80) ["ab"] ["abcd"] ≤ 100 ∧
    compareWords (cliFuzzyOptions 80) ["ab"] ["abcd"] =
      min (matchedWeight (cliFuzzyOptions 80) ["ab"] ["abcd"] * 2 * 100
        / totalWeight (cliFuzzyOptions 80) ["ab"] ["abcd"]) 100 :=
  ⟨by decide, by decide,
    (fuzzy_percentage_formula (cliFuzzyOptions 80) ["ab"] ["abcd"]).1,
    (fuzzy_percentage_formula (cliFuzzyOptions 80) ["ab"] ["abcd"]).2
      (by decide) (by decide)⟩

/-!
Word extraction.  Two near-duplicate extractors exist in the source:
`extractWords` in src/internal/fs/file.go (used by `File.ExtractWords`,
which is what the fuzzy matcher calls) filters only by token length,
while `ExtractWords` in src/internal/matcher/matcher.go (not called by
the engine) additionally requires an alphanumeric rune.  Both are
embedded.  `strings.ToLower` and the `unicode` classifiers are modelled
at their ASCII behaviour, which covers every rune these filters and the
claims exercise.
-/

/-- Go `strings.ToLower`. -/
def goToLower (s : String) : String := ⟨s.data.map Char.toLower⟩

/-- Whitespace test of `strings.Fields` (`unicode.IsSpace`, at its ASCII
behaviour). -/
def goIsSpace (c : Char) : Bool := c == ' ' || c == '\t' || c == '\n' || c == '\r'

/-- Helper for `goExt`: the suffix of the rune list starting at its last
dot, empty when no dot occurs. -/
def goExtList : List Char → List Char
  | [] => []
  | c :: rest =>
    if '.' ∈ rest then goExtList rest
    else if c = '.' then c :: rest
    else []

/-- Go `path/filepath.Ext` on a bare filename (no separator handling is
needed: `File.Name` comes from `filepath.Base`). -/
def goExt (s : String) : String := ⟨goExtList s.data⟩

/-- Go `strings.TrimSuffix`. -/
def goTrimSuffix (s suffx : String) : String :=
  if suffx.data.isSuffixOf s.data then
    ⟨s.data.take (s.data.length - suffx.data.length)⟩
  else s

/-- One `strings.ReplaceAll(s, string(old), " ")` step for a
single-character pattern. -/
def replaceChar (old : Char) (cs : List Char) : List Char :=
  cs.map fun c => if c = old then ' ' else c

/-- The ten separator replacements of both extractors, applied in source
order: `- _ . , ( ) [ ] LBRACE RBRACE` each become a space. -/
def replaceSeparators (cs : List Char) : List Char :=
  replaceChar '\x7d'
    (replaceChar '\x7b'
      (replaceChar ']'
        (replaceChar '['
          (replaceChar ')'
            (replaceChar '('
              (replaceChar ','
                (replaceChar '.'
                  (replaceChar '_'
                    (replaceChar '-' cs)))))))))

/-- Helper for `goFields`: accumulate the current (reversed) run of
non-whitespace runes, emitting it at each whitespace boundary. -/
def fieldsAux : List Char → List Char → List (List Char)
  | [], acc => if acc.isEmpty then [] else [acc.reverse]
  | c :: rest, acc =>
    if goIsSpace c then
      if acc.isEmpty then fieldsAux rest [] else acc.reverse :: fieldsAux rest []
    else fieldsAux rest (c :: acc)

/-- Go `strings.Fields`: maximal runs of non-whitespace runes. -/
def fieldsList (cs : List Char) : List (List Char) := fieldsAux cs []

/-- Go `strings.Fields` returning strings. -/
def goFields (s : String) : List String := (fieldsList s.data).map fun l => ⟨l⟩

/-- The lowercased, extension-stripped, separator-replaced filename that
fs/file.go `extractWords` splits into fields (and whose value is also
what the fallback branch appends). -/
def fsProcessedName (filename : String) : String :=
  let f1 := goToLower filename
  let f2 := goTrimSuffix f1 (goExt f1)
  ⟨replaceSeparators f2.data⟩

/-- fs/file.go `extractWords`: split the processed name on whitespace,
keep tokens of byte length at least 2 (no alphanumeric requirement), and
fall back to the whole processed name when nothing survives. -/
def extractWordsFs (filename : String) : List String :=
  let f3 := fsProcessedName filename
  let parts := goFields f3
  let words := parts.filter fun p => 2 ≤ goLen p
  if words.isEmpty then [goToLower f3] else words

/-- matcher.go `containsAlphaNumeric` (`unicode.IsLetter` and
`unicode.IsDigit` at their ASCII behaviour). -/
def containsAlphaNumeric (s : String) : Bool :=
  s.data.any fun c => c.isAlpha || c.isDigit

/-- matcher.go `ExtractWords` (present in the source but not called by
the engine pipeline, which goes through `File.ExtractWords` and the fs
variant): also requires an alphanumeric rune, and falls back only when
the processed name is nonempty. -/
def matcherProcessedName (filename : String) : String :=
  let f1 := goToLower filename
  let f2 := goTrimSuffix f1 (goToLower (goExt f1))
  ⟨replaceSeparators f2.data⟩

/-- matcher.go `ExtractWords`. -/
def matcherExtractWords (filename : String) : List String :=
  let f3 := matcherProcessedName filename
  let parts := goFields f3
  let words := parts.filter fun p => 2 ≤ goLen p && containsAlphaNumeric p
  if words.isEmpty && 0 < goLen f3 then [f3] else words

/-- Claim C5 counterexample, against the extractor the engine actually
uses (fs/file.go):  (a) filename "!!" yields the token "!!", which
contains no letter or digit, refuting the claimed alphanumeric filter;
(b) filename "-.txt" yields the single fallback token " " — the
separator-replaced form — of byte length 1, not the lowercased
extension-stripped name "-" the claim describes. -/
theorem extractWords_filter_cex :
    extractWordsFs "!!" = ["!!"] ∧
    containsAlphaNumeric "!!" = false ∧
    extractWordsFs "-.txt" = [" "] ∧
    goLen " " = 1 ∧
    goTrimSuffix (goToLower "-.txt") (goExt (goToLower "-.txt")) = "-" := by
  refine ⟨by decide, by decide, by decide, by decide, by decide⟩

/-- Claim C5 (amended): for every filename the fs extractor returns a
nonempty list; either every returned token has byte length at least 2
(tokens need not contain a letter or digit — that filter exists only in
the unused matcher-level extractor), or nothing survived the length
filter and the result is the single fallback token, equal to the
lowercased, extension-stripped, separator-replaced name (which may be
shorter than 2 characters). -/
theorem extractWordsFs_spec (filename : String) :
    extractWordsFs filename ≠ [] ∧
    ((∀ w ∈ extractWordsFs filename, 2 ≤ goLen w) ∨
      extractWordsFs filename = [goToLower (fsProcessedName filename)]) := by
  simp only [extractWordsFs]
  split
  · exact ⟨by simp, Or.inr rfl⟩
  · rename_i hne
    refine ⟨?_, Or.inl ?_⟩
    · intro hc
      rw [hc] at hne
      simp at hne
    · intro w hmem
      have hf := List.of_mem_filter hmem
      simpa using hf

/-!
Files and digests (src/internal/hash/hash.go, src/internal/fs/file.go,
and `matchExact` of src/internal/matcher/matcher.go).  A file record
carries the stat size (`int64`, embedded as `Int`), the byte content the
reads would deliver, and a flag saying whether reads of it fail.  The
MD5 digest is embedded as an abstract digest function over contents: the
code only ever compares digests for equality, and treats digest equality
as content identity (the accepted risk noted in spec section 4.5).
Digest memoization on the record recomputes the same pure value and is
dropped.  `id` models Go pointer identity of the `*fs.File` records.
-/

/-- hash.go `MinPartialSize`: 3 MiB, also written literally as
`3*1024*1024` in matcher.go and engine.go. -/
def minPartialSize : Int := 3 * 1024 * 1024

/-- hash.go `PartialOffset`: 16 KiB. -/
def partialOffset : Nat := 0x4000

/-- hash.go `PartialSize`: 16 KiB. -/
def partialSize : Nat := 0x4000

/-- One scanned file record (fs.File). -/
structure GoFile where
  id : Nat
  name : String
  size : Int
  content : List Nat
  readErr : Bool
deriving DecidableEq, Repr

/-- The window hashed by `HashFilePartial`: seek to `PartialOffset`,
read at most `PartialSize` bytes (a seek past EOF succeeds and the
following read returns 0 bytes with EOF, hashing the empty slice). -/
def partialWindow (content : List Nat) : List Nat :=
  (content.drop partialOffset).take partialSize

/-- `File.GetDigest` via `hash.HashFile`: digest of the whole content
(read in 1 MiB chunks, which concatenate back to the content), `none`
on a read error. -/
def getDigest (h : List Nat → List Nat) (f : GoFile) : Option (List Nat) :=
  if f.readErr then none else some (h f.content)

/-- `File.GetPartialDigest`: files below `MinPartialSize` fall through
to `GetDigest`; otherwise the digest of the 16 KiB window. -/
def getPartialDigest (h : List Nat → List Nat) (f : GoFile) : Option (List Nat) :=
  if f.size < minPartialSize then getDigest h f
  else if f.readErr then none else some (h (partialWindow f.content))

/-- The final full-digest comparison of `matchExact` (matcher.go lines
81-97), threading the number of digest-getter calls already made. -/
def matchExactFullPhase (h : List Nat → List Nat) (first second : GoFile)
    (calls : Nat) : Nat × Nat :=
  match getDigest h first with
  | none => (0, calls + 1)
  | some d1 =>
    match getDigest h second with
    | none => (0, calls + 2)
    | some d2 => (if d1 = d2 then 100 else 0, calls + 2)

/-- matcher.go `matchExact`, instrumented with the number of
digest-getter invocations (`GetPartialDigest` or `GetDigest`) made on
either record, so that "score 0 without any digest computation" is a
statement about the code and not about the test harness. -/
def matchExactCounted (h : List Nat → List Nat) (first second : GoFile) : Nat × Nat :=
  if first.size ≠ second.size then (0, 0)
  else if minPartialSize ≤ first.size then
    match getPartialDigest h first with
    | none => (0, 1)
    | some d1 =>
      match getPartialDigest h second with
      | none => (0, 2)
      | some d2 => if d1 ≠ d2 then (0, 2) else matchExactFullPhase h first second 2
  else matchExactFullPhase h first second 0

/-- The percentage returned by `matchExact`. -/
def matchExact (h : List Nat → List Nat) (first second : GoFile) : Nat :=
  (matchExactCounted h first second).1

/-- Claim C1: with the digest function abstract and collision-free (the
identity-of-digests reading the code and spec section 4.5 share), two
records whose stat sizes agree with their contents score 100 when the
contents are identical and all digest computations succeed, and score 0
when the sizes are equal but the contents differ (in the latter case
also on digest read errors, since every error path returns 0). -/
theorem matchExact_content_scores (h : List Nat → List Nat) (f1 f2 : GoFile)
    (wf1 : f1.size = f1.content.length) (wf2 : f2.size = f2.content.length) :
    (f1.content = f2.content → f1.readErr = false → f2.readErr = false →
      matchExact h f1 f2 = 100) ∧
    (Function.Injective h → f1.size = f2.size → f1.content ≠ f2.content →
      matchExact h f1 f2 = 0) := by
  constructor
  · intro hc he1 he2
    have hsz : f1.size = f2.size := by rw [wf1, wf2, hc]
    unfold matchExact matchExactCounted matchExactFullPhase
    rw [if_neg (by simp [hsz])]
    by_cases hbig : minPartialSize ≤ f1.size
    · have hb2 : ¬f1.size < minPartialSize := not_lt.mpr hbig
      have hb3 : ¬f2.size < minPartialSize := not_lt.mpr (hsz ▸ hbig)
      simp [hbig, getPartialDigest, getDigest, hb2, hb3, he1, he2, hc]
    · simp [hbig, getDigest, he1, he2, hc]
  · intro hinj hsz hne
    have hne2 : h f1.content ≠ h f2.content := fun hcon => hne (hinj hcon)
    unfold matchExact matchExactCounted matchExactFullPhase
    rw [if_neg (by simp [hsz])]
    by_cases hbig : minPartialSize ≤ f1.size
    · have hb2 : ¬f1.size < minPartialSize := not_lt.mpr hbig
      have hb3 : ¬f2.size < minPartialSize := not_lt.mpr (hsz ▸ hbig)
      cases he1 : f1.readErr <;> cases he2 : f2.readErr <;>
        by_cases hw : h (partialWindow f1.content) = h (partialWindow f2.content) <;>
          simp [hbig, getPartialDigest, getDigest, hb2, hb3, he1, he2, hw, hne2]
    · cases he1 : f1.readErr <;> cases he2 : f2.readErr <;>
        simp [hbig, getDigest, he1, he2, hne2]

theorem matchExact_content_scores_witness :
    let fa : GoFile := ⟨0, "a.bin", 1, [7], false⟩
    let fb : GoFile := ⟨1, "b.bin", 1, [7], false⟩
    let fc : GoFile := ⟨2, "c.bin", 1, [8], false⟩
    matchExact id fa fb = 100 ∧ matchExact id fa fc = 0 := by
  refine ⟨(matchExact_content_scores id _ _ (by decide) (by decide)).1
      (by decide) (by decide) (by decide),
    (matchExact_content_scores id _ _ (by decide) (by decide)).2
      (fun a b hab => hab) (by decide) (by decide)⟩

/-- Claim C6: records of different sizes score 0 with zero digest-getter
invocations — the size gate returns before any hashing. -/
theorem matchExact_size_gate_no_digest (h : List Nat → List Nat) (f1 f2 : GoFile)
    (hne : f1.size ≠ f2.size) : matchExactCounted h f1 f2 = (0, 0) := by
  unfold matchExactCounted
  rw [if_pos hne]

theorem matchExact_size_gate_no_digest_witness :
    matchExactCounted id ⟨0, "a.bin", 1, [7], false⟩ ⟨1, "b.bin", 2, [7, 7], false⟩
      = (0, 0) :=
  matchExact_size_gate_no_digest id _ _ (by decide)

/-- Claim C8: below the 3 MiB threshold `GetPartialDigest` degenerates
to `GetDigest`; at or above it, the partial digest is the digest of the
16 KiB window starting at byte offset 0x4000. -/
theorem getPartialDigest_spec (h : List Nat → List Nat) (f : GoFile) :
    (f.size < minPartialSize → getPartialDigest h f = getDigest h f) ∧
    (minPartialSize ≤ f.size → f.readErr = false →
      getPartialDigest h f = some (h ((f.content.drop 0x4000).take 0x4000))) := by
  constructor
  · intro hsmall
    unfold getPartialDigest
    rw [if_pos hsmall]
  · intro hbig he
    unfold getPartialDigest
    rw [if_neg (not_lt.mpr hbig), if_neg (by simp [he])]
    rfl

theorem getPartialDigest_spec_witness :
    let fsmall : GoFile := ⟨0, "s.bin", 1, [7], false⟩
    let fbig : GoFile := ⟨1, "b.bin", 3 * 1024 * 1024, [7], false⟩
    getPartialDigest id fsmall = getDigest id fsmall ∧
    getPartialDigest id fbig = some (id (([7] : List Nat).drop 0x4000).take 0x4000) := by
  refine ⟨(getPartialDigest_spec id _).1 (by decide),
    (getPartialDigest_spec id _).2 (by decide) (by decide)⟩

/-!
Exclude patterns (scanner.go `NewScanner` and the directory-level
`SetExcludePattern`).  `NewScanner` translates the comma-separated glob
list to a regex and compiles it with `regexp.MustCompile`, which
panics — `NewScanner` has no error return — while the (uncalled)
`Directory.SetExcludePattern` compiles with `regexp.Compile` and returns
the error.  Compilation success of Go's regexp package is modelled by a
scanner over the RE2 syntax fragment reachable from the translation:
group balance, class balance and non-emptiness, dangling escapes, and
repetition operators lacking an operand; anchors occur only at the two
ends of translated patterns and are treated as literals.
-/

/-- Go `strings.Replace(s, string(old), new, -1)` for a one-character
pattern. -/
def replaceCharWith (old : Char) (new : List Char) (cs : List Char) : List Char :=
  cs.flatMap fun c => if c = old then new else [c]

/-- scanner.go lines 42-45 (and the identical translation in
`SetExcludePattern`): escape dots, `*` to `.*`, `?` to `.`, commas to
alternation, anchored. -/
def translateGlob (exclude : String) : String :=
  let s1 := replaceCharWith '.' ['\\', '.'] exclude.data
  let s2 := replaceCharWith '*' ['.', '*'] s1
  let s3 := replaceCharWith '?' ['.'] s2
  let s4 := replaceCharWith ',' ['|'] s3
  ⟨'^' :: '(' :: (s4 ++ [')', '$'])⟩

/-- Whether the previous regex item can be the operand of a repetition
operator. -/
inductive RegexSt where
  | noOperand
  | operand
  | rep
  | repLazy
deriving DecidableEq, Repr

/-- Skip a character class body up to its closing bracket, honouring
escapes; `none` when the class never closes. -/
def skipClass : List Char → Option (List Char)
  | [] => none
  | c :: rest =>
    if c = '\\' then
      match rest with
      | [] => none
      | _ :: r2 => skipClass r2
    else if c = ']' then some rest
    else skipClass rest

/-- The validity scanner behind `goRegexValid`; `fuel` dominates the
input length so the recursion is structural. -/
def regexScan (fuel : Nat) (cs : List Char) (depth : Nat) (st : RegexSt) : Bool :=
  match fuel with
  | 0 => false
  | fuel + 1 =>
    match cs with
    | [] => depth = 0
    | c :: rest =>
      if c = '\\' then
        match rest with
        | [] => false
        | _ :: r2 => regexScan fuel r2 depth .operand
      else if c = '(' then regexScan fuel rest (depth + 1) .noOperand
      else if c = ')' then
        if depth = 0 then false else regexScan fuel rest (depth - 1) .operand
      else if c = '|' then regexScan fuel rest depth .noOperand
      else if c = '*' ∨ c = '+' then
        if st = .operand then regexScan fuel rest depth .rep else false
      else if c = '?' then
        if st = .operand then regexScan fuel rest depth .rep
        else if st = .rep then regexScan fuel rest depth .repLazy
        else false
      else if c = '[' then
        let rest1 := match rest with
          | '^' :: r => r
          | _ => rest
        match rest1 with
        | [] => false
        | ']' :: _ => false
        | _ =>
          match skipClass rest1 with
          | none => false
          | some r2 => regexScan fuel r2 depth .operand
      else regexScan fuel rest depth .operand

/-- Model of `regexp.Compile` succeeding on the translated pattern. -/
def goRegexValid (s : String) : Bool :=
  regexScan (s.data.length + 1) s.data 0 .noOperand

/-- scanner.go `ScanType`. -/
inductive ScanType where
  | standard
  | content
deriving DecidableEq, Repr

/-- The configuration fields of scanner.go `Scanner` fixed at
construction; the compiled exclude regex is represented by its source
text. -/
structure ScannerCfg where
  directories : List String
  excludePattern : Option String
  recursive : Bool
  scanType : ScanType
  minMatchPct : Nat
deriving DecidableEq, Repr

/-- A Go runtime panic: the function never returns, so no value — and no
error value — reaches the caller. -/
inductive GoPanic where
  | mustCompilePanic
deriving DecidableEq, Repr

/-- scanner.go `NewScanner`: its Go signature returns only `*Scanner`;
an invalid translated pattern makes `regexp.MustCompile` panic. -/
def newScanner (dirs : List String) (exclude : String) (recursive : Bool)
    (scanType : ScanType) (minMatch : Nat) : Except GoPanic ScannerCfg :=
  if exclude = "" then .ok ⟨dirs, none, recursive, scanType, minMatch⟩
  else
    let rx := translateGlob exclude
    if goRegexValid rx then .ok ⟨dirs, some rx, recursive, scanType, minMatch⟩
    else .error .mustCompilePanic

/-- The uncalled `Directory.SetExcludePattern` (directory source file):
the same translation, but compiled with `regexp.Compile` so the invalid
pattern is returned to the caller as an error value. -/
def setExcludePattern (pattern : String) : Except String (Option String) :=
  if pattern = "" then .ok none
  else
    let rx := translateGlob pattern
    if goRegexValid rx then .ok (some rx) else .error "error parsing regexp"

/-- Claim C7 counterexample: the exclude list "(" translates to the
pattern "^(()$", which has an unclosed group and does not compile;
`NewScanner` — the constructor the CLI uses — then panics inside
`regexp.MustCompile` rather than reporting a configuration error to the
caller (it has no error return at all).  No scan starts, but no error
value is surfaced either. -/
theorem newScanner_invalid_pattern_cex :
    translateGlob "(" = "^(()$" ∧
    goRegexValid (translateGlob "(") = false ∧
    newScanner ["dir"] "(" true .content 80 = .error .mustCompilePanic ∧
    setExcludePattern "(" = .error "error parsing regexp" := by
  refine ⟨by decide, by decide, by rfl, by rfl⟩

/-- Claim C7 (amended): a non-empty exclude list whose translation is an
invalid regular expression makes `NewScanner` panic via
`regexp.MustCompile` before any scanning begins — no scanner is
constructed, so no scan starts and no partial results exist, but the
failure is a panic, not a configuration error returned to the caller
(only the dead `Directory.SetExcludePattern` would return it as an
error). -/
theorem newScanner_invalid_pattern_panics (dirs : List String) (exclude : String)
    (recursive : Bool) (st : ScanType) (mm : Nat)
    (hne : exclude ≠ "") (hbad : goRegexValid (translateGlob exclude) = false) :
    newScanner dirs exclude recursive st mm = .error .mustCompilePanic := by
  unfold newScanner
  rw [if_neg hne, if_neg (by simp [hbad])]

theorem newScanner_invalid_pattern_panics_witness :
    ("(" : String) ≠ "" ∧ goRegexValid (translateGlob "(") = false ∧
    newScanner ["dir"] "(" false .standard 80 = .error .mustCompilePanic :=
  ⟨by decide, by decide,
    newScanner_invalid_pattern_panics ["dir"] "(" false .standard 80
      (by decide) (by decide)⟩

example : goRegexValid (translateGlob "*.tmp,*.log") = true := by decide

example : goRegexValid (translateGlob "a?.txt") = true := by decide

/-!
Go's `sort.Slice` (engine.go line 60 sorts the group list with it).
`sort.Slice` is Go's unstable sort: pattern-defeating quicksort since Go
1.19, with the same insertion-sort cutoff (12) as the earlier introsort.
The port below follows the Go sort package (`pdqsort_func` and helpers)
on a list-with-indices representation: `data.Swap(i, j)` becomes
`lswap`, `data.Less(i, j)` becomes `lt` on the elements at `i` and `j`.
Loops are modelled by fueled recursion; every call made by `sortSliceGo`
has ample fuel (each loop step consumes one unit and shrinks its
interval).  `lswap` guards against out-of-range indices (where Go would
panic; no modelled run reaches that case) so that it is always a
permutation.
-/

section GoSort

variable {α : Type} [Inhabited α]

/-- `data.Swap(i, j)` on a list; no-op out of range (Go would panic
there, and no call below is out of range). -/
def lswap (l : List α) (i j : Nat) : List α :=
  if i < l.length ∧ j < l.length then
    (l.set i (l.getD j default)).set j (l.getD i default)
  else l

variable (lt : α → α → Bool)

/-- `data.Less(i, j)`. -/
def lless (l : List α) (i j : Nat) : Bool :=
  lt (l.getD i default) (l.getD j default)

/-- Inner loop of `insertionSort_func`: bubble the element at `j` left
while it is strictly less than its left neighbour, not past `a`. -/
def insertInnerGo (l : List α) (a j : Nat) : List α :=
  match j with
  | 0 => l
  | j + 1 =>
    if a < j + 1 ∧ lless lt l (j + 1) j then
      insertInnerGo (lswap l (j + 1) j) a j
    else l

/-- Outer loop of `insertionSort_func`, running `i = a+1, ..., b-1`. -/
def insertOuterGo (fuel : Nat) (l : List α) (a b i : Nat) : List α :=
  match fuel with
  | 0 => l
  | fuel + 1 =>
    if i < b then insertOuterGo fuel (insertInnerGo lt l a i) a b (i + 1)
    else l

/-- Go `insertionSort_func(data, a, b)`. -/
def insertionSortGo (l : List α) (a b : Nat) : List α :=
  insertOuterGo lt (b + 1) l a b (a + 1)

/-- Go `siftDown_func(data, lo, hi, first)`. -/
def siftDownGo (fuel : Nat) (l : List α) (root hi first : Nat) : List α :=
  match fuel with
  | 0 => l
  | fuel + 1 =>
    let child := 2 * root + 1
    if child ≥ hi then l
    else
      let child := if child + 1 < hi ∧ lless lt l (first + child) (first + child + 1)
        then child + 1 else child
      if ¬lless lt l (first + root) (first + child) then l
      else siftDownGo fuel (lswap l (first + root) (first + child)) child hi first

/-- First loop of `heapSort_func`: build the heap, `i` descending from
`(hi-1)/2` to 0 (`count` is `i + 1`). -/
def heapBuildGo (l : List α) (hi first count : Nat) : List α :=
  match count with
  | 0 => l
  | count + 1 => heapBuildGo (siftDownGo lt (hi + 1) l count hi first) hi first count

/-- Second loop of `heapSort_func`: pop elements, `i` descending from
`hi - 1` to 0 (`count` is `i + 1`). -/
def heapPopGo (l : List α) (first count : Nat) : List α :=
  match count with
  | 0 => l
  | count + 1 =>
    heapPopGo (siftDownGo lt (count + 1) (lswap l first (first + count)) 0 count first)
      first count

/-- Go `heapSort_func(data, a, b)`. -/
def heapSortGo (l : List α) (a b : Nat) : List α :=
  let hi := b - a
  heapPopGo lt (heapBuildGo lt l hi a ((hi - 1) / 2 + 1)) a hi

/-- Go `reverseRange_func(data, a, b)` (`count` bounds the loop). -/
def reverseRangeAux (count : Nat) (l : List α) (i j : Nat) : List α :=
  match count with
  | 0 => l
  | count + 1 => if i < j then reverseRangeAux count (lswap l i j) (i + 1) (j - 1) else l

/-- Go `reverseRange_func(data, a, b)`. -/
def reverseRangeGo (l : List α) (a b : Nat) : List α :=
  reverseRangeAux (b + 1) l a (b - 1)

/-- Go `order2_func`: returns the two indices with the lesser first,
counting a swap. -/
def order2Go (l : List α) (a b swaps : Nat) : Nat × Nat × Nat :=
  if lless lt l b a then (b, a, swaps + 1) else (a, b, swaps)

/-- Go `median_func`: index of the median of three, threading `swaps`. -/
def medianGo (l : List α) (a b c swaps : Nat) : Nat × Nat :=
  match order2Go lt l a b swaps with
  | (a1, b1, s1) =>
    match order2Go lt l b1 c s1 with
    | (b2, _, s2) =>
      match order2Go lt l a1 b2 s2 with
      | (_, b3, s3) => (b3, s3)

/-- Go `medianAdjacent_func`. -/
def medianAdjacentGo (l : List α) (a swaps : Nat) : Nat × Nat :=
  medianGo lt l (a - 1) a (a + 1) swaps

/-- The `sortedHint` values of the Go sort package. -/
inductive SortedHint where
  | unknown
  | increasing
  | decreasing
deriving DecidableEq, Repr

/-- The hint drawn from the swap counter in `choosePivot_func`
(`maxSwaps` is `4 * 3`). -/
def hintFromSwaps (swaps : Nat) : SortedHint :=
  if swaps = 0 then .increasing
  else if swaps = 12 then .decreasing
  else .unknown

/-- Go `choosePivot_func(data, a, b)` (`shortestNinther` is 50). -/
def choosePivotGo (l : List α) (a b : Nat) : Nat × SortedHint :=
  let len := b - a
  let i := a + len / 4 * 1
  let j := a + len / 4 * 2
  let k := a + len / 4 * 3
  if len ≥ 8 then
    if len ≥ 50 then
      match medianAdjacentGo lt l i 0 with
      | (i1, s1) =>
        match medianAdjacentGo lt l j s1 with
        | (j1, s2) =>
          match medianAdjacentGo lt l k s2 with
          | (k1, s3) =>
            match medianGo lt l i1 j1 k1 s3 with
            | (jm, s4) => (jm, hintFromSwaps s4)
    else
      match medianGo lt l i j k 0 with
      | (jm, s) => (jm, hintFromSwaps s)
  else (j, .increasing)

/-- The leftward shift of `partialInsertionSort_func` (its first inner
`for j := i - 1; j > a; j--` loop). -/
def shiftLeftGo (l : List α) (a j : Nat) : List α :=
  match j with
  | 0 => l
  | j + 1 =>
    if a < j + 1 then
      if ¬lless lt l (j + 1) j then l
      else shiftLeftGo (lswap l (j + 1) j) a j
    else l

/-- The rightward shift of `partialInsertionSort_func` (its second inner
`for j := i + 1; j < b` loop). -/
def shiftRightGo (fuel : Nat) (l : List α) (b j : Nat) : List α :=
  match fuel with
  | 0 => l
  | fuel + 1 =>
    if j < b then
      if ¬lless lt l j (j - 1) then l
      else shiftRightGo fuel (lswap l j (j - 1)) b (j + 1)
    else l

/-- The scan of `partialInsertionSort_func` advancing `i` over sorted
positions. -/
def advanceSortedGo (fuel : Nat) (l : List α) (b i : Nat) : Nat :=
  match fuel with
  | 0 => i
  | fuel + 1 =>
    if i < b ∧ ¬lless lt l i (i - 1) then advanceSortedGo fuel l b (i + 1) else i

/-- Go `partialInsertionSort_func(data, a, b)` (`maxSteps` 5,
`shortestShifting` 50): returns whether the range ended sorted, plus the
(possibly shifted) list. -/
def partialInsertionSortGo (steps : Nat) (l : List α) (a b i : Nat) : Bool × List α :=
  match steps with
  | 0 => (false, l)
  | steps + 1 =>
    let i := advanceSortedGo lt (b + 1) l b i
    if i = b then (true, l)
    else if b - a < 50 then (false, l)
    else
      let l := lswap l i (i - 1)
      let l := if i - a ≥ 2 then shiftLeftGo lt l a (i - 1) else l
      let l := if b - i ≥ 2 then shiftRightGo lt (b + 1) l b (i + 1) else l
      partialInsertionSortGo steps l a b i

/-- One step of the xorshift generator of the Go sort package
(`*r ^= *r << 13; *r ^= *r >> 7; *r ^= *r << 17` on `uint64`). -/
def xorshiftNext (x : Nat) : Nat :=
  let x := (x ^^^ (x <<< 13)) % 2 ^ 64
  let x := (x ^^^ (x >>> 7)) % 2 ^ 64
  (x ^^^ (x <<< 17)) % 2 ^ 64

/-- Go `bits.Len` (number of bits of `n`), with the first argument as
fuel so the kernel can evaluate it (`n` iterations always suffice). -/
def bitsLenAux : Nat → Nat → Nat
  | 0, _ => 0
  | fuel + 1, n => if n = 0 then 0 else bitsLenAux fuel (n / 2) + 1

/-- Go `bits.Len(n)`. -/
def goBitsLen (n : Nat) : Nat := bitsLenAux n n

/-- Go sort package `nextPowerOfTwo(length)`: `1 << bits.Len(length)`. -/
def nextPowerOfTwo (length : Nat) : Nat := 1 <<< goBitsLen length

/-- The three swaps of `breakPatterns_func`, threading the generator. -/
def breakPatternsLoop (count : Nat) (l : List α) (random modulus length a idx i : Nat) :
    List α :=
  match count with
  | 0 => l
  | count + 1 =>
    let random := xorshiftNext random
    let other := random &&& (modulus - 1)
    let other := if other ≥ length then other - length else other
    breakPatternsLoop count (lswap l (idx - 1 + i) (a + other)) random modulus length a
      idx (i + 1)

/-- Go `breakPatterns_func(data, a, b)`. -/
def breakPatternsGo (l : List α) (a b : Nat) : List α :=
  let length := b - a
  if length ≥ 8 then
    let modulus := nextPowerOfTwo length
    let idx := a + length / 4 * 2 - 1
    breakPatternsLoop 3 l length modulus length a idx 0
  else l

/-- The `for i <= j && data.Less(i, a)` scan of `partition_func`. -/
def partAdvanceGo (fuel : Nat) (l : List α) (a i j : Nat) : Nat :=
  match fuel with
  | 0 => i
  | fuel + 1 =>
    if i ≤ j ∧ lless lt l i a then partAdvanceGo fuel l a (i + 1) j else i

/-- The `for i <= j && !data.Less(j, a)` scan of `partition_func`. -/
def partRetreatGo (fuel : Nat) (l : List α) (a i j : Nat) : Nat :=
  match fuel with
  | 0 => j
  | fuel + 1 =>
    if i ≤ j ∧ ¬lless lt l j a then partRetreatGo fuel l a i (j - 1) else j

/-- The main loop of `partition_func` after the first crossing test. -/
def partitionLoopGo (fuel : Nat) (l : List α) (a i j : Nat) : Nat × List α :=
  match fuel with
  | 0 => (j, l)
  | fuel + 1 =>
    let i := partAdvanceGo lt (j + 2) l a i j
    let j := partRetreatGo lt (j + 2) l a i j
    if i > j then (j, l)
    else partitionLoopGo fuel (lswap l i j) a (i + 1) (j - 1)

/-- Go `partition_func(data, a, b, pivot)`: returns the new pivot
position, whether the range was already partitioned, and the list. -/
def partitionGo (l : List α) (a b pivot : Nat) : Nat × Bool × List α :=
  let l := lswap l a pivot
  let i := partAdvanceGo lt (b + 2) l a (a + 1) (b - 1)
  let j := partRetreatGo lt (b + 2) l a i (b - 1)
  if i > j then (j, true, lswap l j a)
  else
    let l := lswap l i j
    match partitionLoopGo lt (b + 2) l a (i + 1) (j - 1) with
    | (j, l) => (j, false, lswap l j a)

/-- The scans of `partitionEqual_func` (note the reversed comparisons
against the pivot at `a`). -/
def partEqAdvanceGo (fuel : Nat) (l : List α) (a i j : Nat) : Nat :=
  match fuel with
  | 0 => i
  | fuel + 1 =>
    if i ≤ j ∧ ¬lless lt l a i then partEqAdvanceGo fuel l a (i + 1) j else i

/-- Second scan of `partitionEqual_func`. -/
def partEqRetreatGo (fuel : Nat) (l : List α) (a i j : Nat) : Nat :=
  match fuel with
  | 0 => j
  | fuel + 1 =>
    if i ≤ j ∧ lless lt l a j then partEqRetreatGo fuel l a i (j - 1) else j

/-- The loop of `partitionEqual_func`. -/
def partitionEqualLoopGo (fuel : Nat) (l : List α) (a i j : Nat) : Nat × List α :=
  match fuel with
  | 0 => (i, l)
  | fuel + 1 =>
    let i := partEqAdvanceGo lt (j + 2) l a i j
    let j := partEqRetreatGo lt (j + 2) l a i j
    if i > j then (i, l)
    else partitionEqualLoopGo fuel (lswap l i j) a (i + 1) (j - 1)

/-- Go `partitionEqual_func(data, a, b, pivot)`: returns the first index
past the run of pivot-equal elements, and the list. -/
def partitionEqualGo (l : List α) (a b pivot : Nat) : Nat × List α :=
  let l := lswap l a pivot
  partitionEqualLoopGo lt (b + 2) l a (a + 1) (b - 1)

/-- The `if !wasBalanced` prologue of the `pdqsort_func` loop body:
break patterns and spend one unit of `limit`. -/
def pdqBreak (wasBalanced : Bool) (l : List α) (a b limit : Nat) : List α × Nat :=
  if ¬wasBalanced then (breakPatternsGo l a b, limit - 1) else (l, limit)

/-- Pivot choice plus the `decreasingHint` reversal of `pdqsort_func`:
returns the list, the (possibly reflected) pivot, and the settled hint. -/
def pdqPivot (l : List α) (a b : Nat) : List α × Nat × SortedHint :=
  match choosePivotGo lt l a b with
  | (pivot, hint) =>
    if hint = .decreasing then
      (reverseRangeGo l a b, (b - 1) - (pivot - a), SortedHint.increasing)
    else (l, pivot, hint)

/-- The guarded `partialInsertionSort_func` attempt of `pdqsort_func`. -/
def pdqMaybePartial (wasBalanced wasPartitioned : Bool) (hint : SortedHint)
    (l : List α) (a b : Nat) : Bool × List α :=
  if wasBalanced ∧ wasPartitioned ∧ hint = .increasing then
    partialInsertionSortGo lt 5 l a b (a + 1)
  else (false, l)

/-- Go `pdqsort_func(data, a, b, limit)`: the `for` loop with its two
iteration-local flags (fresh recursive invocations restart both flags at
`true`, as the Go locals do).  `maxInsertion` is 12. -/
def pdqLoopGo (fuel : Nat) (l : List α) (a b limit : Nat)
    (wasBalanced wasPartitioned : Bool) : List α :=
  match fuel with
  | 0 => l
  | fuel + 1 =>
    if b - a ≤ 12 then insertionSortGo lt l a b
    else if limit = 0 then heapSortGo lt l a b
    else
      match pdqBreak wasBalanced l a b limit with
      | (l1, limit1) =>
        match pdqPivot lt l1 a b with
        | (l2, pivot, hint) =>
          match pdqMaybePartial lt wasBalanced wasPartitioned hint l2 a b with
          | (alreadySorted, l3) =>
            if alreadySorted then l3
            else if 0 < a ∧ ¬lless lt l3 (a - 1) pivot then
              match partitionEqualGo lt l3 a b pivot with
              | (mid, l4) => pdqLoopGo fuel l4 mid b limit1 wasBalanced wasPartitioned
            else
              match partitionGo lt l3 a b pivot with
              | (mid, alreadyPartitioned, l4) =>
                let wasBalanced2 := decide (min (mid - a) (b - mid) ≥ (b - a) / 8)
                if mid - a < b - mid then
                  pdqLoopGo fuel (pdqLoopGo fuel l4 a mid limit1 true true)
                    (mid + 1) b limit1 wasBalanced2 alreadyPartitioned
                else
                  pdqLoopGo fuel (pdqLoopGo fuel l4 (mid + 1) b limit1 true true)
                    a mid limit1 wasBalanced2 alreadyPartitioned

/-- Go `sort.Slice(x, less)`: `pdqsort_func(lessSwap, 0, n, bits.Len(n))`. -/
def sortSliceGo (l : List α) : List α :=
  pdqLoopGo lt (l.length + 1) l 0 l.length (goBitsLen l.length) true true

/-! Every operation of the port is a composition of swaps, so every
output is a permutation of the input. -/

theorem getD_cons_set_perm :
    ∀ (t : List α) (k : Nat) (x : α), k < t.length →
      (t.getD k default :: t.set k x).Perm (x :: t) := by
  intro t
  induction t with
  | nil => intro k x hk; cases hk
  | cons y t' ih =>
    intro k x hk
    cases k with
    | zero => exact List.Perm.swap x y t'
    | succ k =>
      have hk' : k < t'.length := Nat.lt_of_succ_lt_succ hk
      exact (List.Perm.swap y (t'.getD k default) (t'.set k x)).trans
        (((ih k x hk').cons y).trans (List.Perm.swap x y t'))

theorem set_getD_perm :
    ∀ (l : List α) (i j : Nat), i < l.length → j < l.length →
      ((l.set i (l.getD j default)).set j (l.getD i default)).Perm l := by
  intro l
  induction l with
  | nil => intro i j hi _; cases hi
  | cons x t ih =>
    intro i j hi hj
    cases i with
    | zero =>
      cases j with
      | zero => simp
      | succ j =>
        have hj' : j < t.length := Nat.lt_of_succ_lt_succ hj
        simpa using getD_cons_set_perm t j x hj'
    | succ i =>
      cases j with
      | zero =>
        have hi' : i < t.length := Nat.lt_of_succ_lt_succ hi
        simpa using getD_cons_set_perm t i x hi'
      | succ j =>
        have hi' : i < t.length := Nat.lt_of_succ_lt_succ hi
        have hj' : j < t.length := Nat.lt_of_succ_lt_succ hj
        simpa using (ih i j hi' hj').cons x

theorem lswap_perm (l : List α) (i j : Nat) : (lswap l i j).Perm l := by
  unfold lswap
  split
  · rename_i hb
    exact set_getD_perm l i j hb.1 hb.2
  · exact List.Perm.refl l

theorem insertInnerGo_perm : ∀ (j : Nat) (l : List α) (a : Nat),
    (insertInnerGo lt l a j).Perm l := by
  intro j
  induction j with
  | zero => intro l a; exact List.Perm.refl l
  | succ j ih =>
    intro l a
    unfold insertInnerGo
    split
    · exact (ih _ a).trans (lswap_perm _ _ _)
    · exact List.Perm.refl l

theorem insertOuterGo_perm : ∀ (fuel : Nat) (l : List α) (a b i : Nat),
    (insertOuterGo lt fuel l a b i).Perm l := by
  intro fuel
  induction fuel with
  | zero => intro l a b i; exact List.Perm.refl l
  | succ fuel ih =>
    intro l a b i
    unfold insertOuterGo
    split
    · exact (ih _ a b (i + 1)).trans (insertInnerGo_perm lt i l a)
    · exact List.Perm.refl l

theorem insertionSortGo_perm (l : List α) (a b : Nat) :
    (insertionSortGo lt l a b).Perm l :=
  insertOuterGo_perm lt (b + 1) l a b (a + 1)

theorem siftDownGo_perm : ∀ (fuel : Nat) (l : List α) (root hi first : Nat),
    (siftDownGo lt fuel l root hi first).Perm l := by
  intro fuel
  induction fuel with
  | zero => intro l root hi first; exact List.Perm.refl l
  | succ fuel ih =>
    intro l root hi first
    unfold siftDownGo
    dsimp only
    split
    · exact List.Perm.refl l
    · split
      · split
        · exact List.Perm.refl l
        · exact (ih _ _ hi first).trans (lswap_perm _ _ _)
      · split
        · exact List.Perm.refl l
        · exact (ih _ _ hi first).trans (lswap_perm _ _ _)

theorem heapBuildGo_perm : ∀ (count : Nat) (l : List α) (hi first : Nat),
    (heapBuildGo lt l hi first count).Perm l := by
  intro count
  induction count with
  | zero => intro l hi first; exact List.Perm.refl l
  | succ count ih =>
    intro l hi first
    unfold heapBuildGo
    exact (ih _ hi first).trans (siftDownGo_perm lt (hi + 1) l count hi first)

theorem heapPopGo_perm : ∀ (count : Nat) (l : List α) (first : Nat),
    (heapPopGo lt l first count).Perm l := by
  intro count
  induction count with
  | zero => intro l first; exact List.Perm.refl l
  | succ count ih =>
    intro l first
    unfold heapPopGo
    exact (ih _ first).trans
      ((siftDownGo_perm lt (count + 1) _ 0 count first).trans (lswap_perm _ _ _))

theorem heapSortGo_perm (l : List α) (a b : Nat) : (heapSortGo lt l a b).Perm l := by
  unfold heapSortGo
  exact (heapPopGo_perm lt _ _ a).trans (heapBuildGo_perm lt _ l _ a)

theorem reverseRangeAux_perm : ∀ (count : Nat) (l : List α) (i j : Nat),
    (reverseRangeAux count l i j).Perm l := by
  intro count
  induction count with
  | zero => intro l i j; exact List.Perm.refl l
  | succ count ih =>
    intro l i j
    unfold reverseRangeAux
    split
    · exact (ih _ (i + 1) (j - 1)).trans (lswap_perm _ _ _)
    · exact List.Perm.refl l

theorem reverseRangeGo_perm (l : List α) (a b : Nat) :
    (reverseRangeGo l a b).Perm l :=
  reverseRangeAux_perm (b + 1) l a (b - 1)

theorem shiftLeftGo_perm : ∀ (j : Nat) (l : List α) (a : Nat),
    (shiftLeftGo lt l a j).Perm l := by
  intro j
  induction j with
  | zero => intro l a; exact List.Perm.refl l
  | succ j ih =>
    intro l a
    unfold shiftLeftGo
    split
    · split
      · exact List.Perm.refl l
      · exact (ih _ a).trans (lswap_perm _ _ _)
    · exact List.Perm.refl l

theorem shiftRightGo_perm : ∀ (fuel : Nat) (l : List α) (b j : Nat),
    (shiftRightGo lt fuel l b j).Perm l := by
  intro fuel
  induction fuel with
  | zero => intro l b j; exact List.Perm.refl l
  | succ fuel ih =>
    intro l b j
    unfold shiftRightGo
    split
    · split
      · exact List.Perm.refl l
      · exact (ih _ b (j + 1)).trans (lswap_perm _ _ _)
    · exact List.Perm.refl l

theorem partialInsertionSortGo_perm : ∀ (steps : Nat) (l : List α) (a b i : Nat),
    (partialInsertionSortGo lt steps l a b i).2.Perm l := by
  intro steps
  induction steps with
  | zero => intro l a b i; exact List.Perm.refl l
  | succ steps ih =>
    intro l a b i
    unfold partialInsertionSortGo
    dsimp only
    split
    · exact List.Perm.refl l
    · split
      · exact List.Perm.refl l
      · refine (ih _ a b _).trans ?_
        split
        · refine (shiftRightGo_perm lt _ _ b _).trans ?_
          split
          · exact (shiftLeftGo_perm lt _ _ a).trans (lswap_perm _ _ _)
          · exact lswap_perm _ _ _
        · split
          · exact (shiftLeftGo_perm lt _ _ a).trans (lswap_perm _ _ _)
          · exact lswap_perm _ _ _

theorem breakPatternsLoop_perm : ∀ (count : Nat) (l : List α)
    (random modulus length a idx i : Nat),
    (breakPatternsLoop count l random modulus length a idx i).Perm l := by
  intro count
  induction count with
  | zero => intro l r m le a idx i; exact List.Perm.refl l
  | succ count ih =>
    intro l r m le a idx i
    unfold breakPatternsLoop
    exact (ih _ _ _ _ _ _ _).trans (lswap_perm _ _ _)

theorem breakPatternsGo_perm (l : List α) (a b : Nat) :
    (breakPatternsGo l a b).Perm l := by
  unfold breakPatternsGo
  dsimp only
  split
  · exact breakPatternsLoop_perm 3 l _ _ _ a _ 0
  · exact List.Perm.refl l

theorem partitionLoopGo_perm : ∀ (fuel : Nat) (l : List α) (a i j : Nat),
    (partitionLoopGo lt fuel l a i j).2.Perm l := by
  intro fuel
  induction fuel with
  | zero => intro l a i j; exact List.Perm.refl l
  | succ fuel ih =>
    intro l a i j
    unfold partitionLoopGo
    dsimp only
    split
    · exact List.Perm.refl l
    · exact (ih _ a _ _).trans (lswap_perm _ _ _)

theorem partitionGo_perm (l : List α) (a b pivot : Nat) :
    (partitionGo lt l a b pivot).2.2.Perm l := by
  unfold partitionGo
  dsimp only
  split
  · exact (lswap_perm _ _ _).trans (lswap_perm _ _ _)
  · exact (lswap_perm _ _ _).trans
      ((partitionLoopGo_perm lt (b + 2) _ a _ _).trans
        ((lswap_perm _ _ _).trans (lswap_perm _ _ _)))

theorem partitionEqualLoopGo_perm : ∀ (fuel : Nat) (l : List α) (a i j : Nat),
    (partitionEqualLoopGo lt fuel l a i j).2.Perm l := by
  intro fuel
  induction fuel with
  | zero => intro l a i j; exact List.Perm.refl l
  | succ fuel ih =>
    intro l a i j
    unfold partitionEqualLoopGo
    dsimp only
    split
    · exact List.Perm.refl l
    · exact (ih _ a _ _).trans (lswap_perm _ _ _)

theorem partitionEqualGo_perm (l : List α) (a b pivot : Nat) :
    (partitionEqualGo lt l a b pivot).2.Perm l :=
  (partitionEqualLoopGo_perm lt (b + 2) _ a (a + 1) (b - 1)).trans (lswap_perm l a pivot)

theorem pdqBreak_perm (wb : Bool) (l : List α) (a b limit : Nat) :
    (pdqBreak wb l a b limit).1.Perm l := by
  unfold pdqBreak
  split
  · exact breakPatternsGo_perm l a b
  · exact List.Perm.refl l

theorem pdqPivot_perm (l : List α) (a b : Nat) : (pdqPivot lt l a b).1.Perm l := by
  unfold pdqPivot
  split
  split
  · exact reverseRangeGo_perm l a b
  · exact List.Perm.refl l

theorem pdqMaybePartial_perm (wb wp : Bool) (hint : SortedHint) (l : List α)
    (a b : Nat) : (pdqMaybePartial lt wb wp hint l a b).2.Perm l := by
  unfold pdqMaybePartial
  split
  · exact partialInsertionSortGo_perm lt 5 l a b (a + 1)
  · exact List.Perm.refl l

theorem pdqLoopGo_perm : ∀ (fuel : Nat) (l : List α) (a b limit : Nat)
    (wb wp : Bool), (pdqLoopGo lt fuel l a b limit wb wp).Perm l := by
  intro fuel
  induction fuel with
  | zero => intro l a b limit wb wp; exact List.Perm.refl l
  | succ fuel ih =>
    intro l a b limit wb wp
    unfold pdqLoopGo
    split
    · exact insertionSortGo_perm lt l a b
    · split
      · exact heapSortGo_perm lt l a b
      · split
        rename_i l1 limit1 hbl
        have h1 : l1.Perm l := by
          have hb := pdqBreak_perm wb l a b limit
          rw [hbl] at hb
          exact hb
        split
        rename_i l2 pivot hint hpv
        have h2 : l2.Perm l := by
          have hp := pdqPivot_perm lt l1 a b
          rw [hpv] at hp
          exact hp.trans h1
        split
        rename_i alreadySorted l3 hps
        have h3 : l3.Perm l := by
          have hq := pdqMaybePartial_perm lt wb wp hint l2 a b
          rw [hps] at hq
          exact hq.trans h2
        split
        · exact h3
        · split
          · split
            rename_i mid l4 heq
            have h4 : l4.Perm l := by
              have hr := partitionEqualGo_perm lt l3 a b pivot
              rw [heq] at hr
              exact hr.trans h3
            exact (ih _ mid b limit1 wb wp).trans h4
          · split
            rename_i mid alreadyPartitioned l4 heq
            have h4 : l4.Perm l := by
              have hr := partitionGo_perm lt l3 a b pivot
              rw [heq] at hr
              exact hr.trans h3
            dsimp only
            split
            · exact (ih _ (mid + 1) b limit1 _ _).trans
                ((ih l4 a mid limit1 true true).trans h4)
            · exact (ih _ a mid limit1 _ _).trans
                ((ih l4 (mid + 1) b limit1 true true).trans h4)

theorem sortSliceGo_perm (l : List α) : (sortSliceGo lt l).Perm l :=
  pdqLoopGo_perm lt (l.length + 1) l 0 l.length (goBitsLen l.length) true true

/-! For at most 12 elements, `pdqsort_func` is exactly one insertion
sort, which sorts and is stable.  This is proved against a functional
reference insertion sort, for comparators of the shape the engine uses:
strictly-greater on a natural-number key. -/

/-- A comparator `less(i, j) = key(j) < key(i)` (sort descending by
`key`). -/
def keyLt (key : α → Nat) (u v : α) : Bool := decide (key v < key u)

/-- Reference stable insertion: place `x` after every element not
strictly below it in sort order. -/
def insertRightRef (x : α) : List α → List α
  | [] => [x]
  | y :: t => if lt x y then x :: y :: t else y :: insertRightRef x t

/-- Reference stable insertion sort (left-to-right fold, matching the
outer loop order of `insertionSort_func`). -/
def isortKey (key : α → Nat) (l : List α) : List α :=
  l.foldl (fun acc x => insertRightRef (keyLt key) x acc) []

theorem sortSliceGo_of_short (l : List α) (hl : l.length ≤ 12) :
    sortSliceGo lt l = insertionSortGo lt l 0 l.length := by
  unfold sortSliceGo pdqLoopGo
  rw [if_pos (by omega : l.length - 0 ≤ 12)]

theorem length_insertRightRef (x : α) :
    ∀ p : List α, (insertRightRef lt x p).length = p.length + 1 := by
  intro p
  induction p with
  | nil => rfl
  | cons y t ih =>
    unfold insertRightRef
    split
    · simp
    · simp [ih]

theorem mem_insertRightRef (x z : α) :
    ∀ p : List α, z ∈ insertRightRef lt x p ↔ z = x ∨ z ∈ p := by
  intro p
  induction p with
  | nil => simp [insertRightRef]
  | cons y t ih =>
    unfold insertRightRef
    split
    · simp [or_comm, or_assoc, or_left_comm]
    · simp [ih]
      tauto

end GoSort

section KeySort

variable {α : Type} [Inhabited α] (key : α → Nat)

/-- Sorted descending by `key` (the pairwise order `sort.Slice`
establishes for the engine's comparator). -/
def sortedByKey (l : List α) : Prop := List.Pairwise (fun u v => key v ≤ key u) l

theorem sorted_insertRightRef (x : α) :
    ∀ p : List α, sortedByKey key p → sortedByKey key (insertRightRef (keyLt key) x p) := by
  intro p
  induction p with
  | nil => intro _; simp [insertRightRef, sortedByKey]
  | cons y t ih =>
    intro hs
    rw [sortedByKey, List.pairwise_cons] at hs
    unfold insertRightRef
    split
    · rename_i hlt
      rw [keyLt, decide_eq_true_iff] at hlt
      rw [sortedByKey, List.pairwise_cons]
      constructor
      · intro z hz
        rcases List.mem_cons.mp hz with hz | hz
        · exact hz ▸ Nat.le_of_lt hlt
        · exact Nat.le_trans (hs.1 z hz) (Nat.le_of_lt hlt)
      · rw [List.pairwise_cons]
        exact hs
    · rename_i hge
      rw [keyLt, decide_eq_true_iff] at hge
      rw [sortedByKey, List.pairwise_cons]
      constructor
      · intro z hz
        rcases (mem_insertRightRef (keyLt key) x z t).mp hz with hz | hz
        · exact hz ▸ Nat.le_of_not_lt hge
        · exact hs.1 z hz
      · exact ih hs.2

theorem filter_insertRightRef (x : α) (n : Nat) :
    ∀ p : List α, sortedByKey key p →
      (insertRightRef (keyLt key) x p).filter (fun z => key z = n)
        = if key x = n then p.filter (fun z => key z = n) ++ [x]
          else p.filter (fun z => key z = n) := by
  intro p
  induction p with
  | nil =>
    intro _
    by_cases hx : key x = n <;> simp [insertRightRef, hx]
  | cons y t ih =>
    intro hs
    rw [sortedByKey, List.pairwise_cons] at hs
    unfold insertRightRef
    split
    · rename_i hlt
      rw [keyLt, decide_eq_true_iff] at hlt
      by_cases hx : key x = n
      · have hnil : (y :: t).filter (fun z => key z = n) = [] := by
          rw [List.filter_eq_nil]
          intro z hz
          rcases List.mem_cons.mp hz with hz | hz
          · subst hz
            simp only [decide_eq_true_iff]
            omega
          · have := hs.1 z hz
            simp only [decide_eq_true_iff]
            omega
        simp [hx, hnil]
      · simp [hx, List.filter_cons]
    · rename_i hge
      rw [keyLt, decide_eq_true_iff] at hge
      by_cases hx : key x = n <;> by_cases hy : key y = n <;>
        simp [List.filter_cons, hx, hy, ih hs.2]

theorem filter_foldl_insert (n : Nat) :
    ∀ (l acc : List α), sortedByKey key acc →
      (l.foldl (fun acc x => insertRightRef (keyLt key) x acc) acc).filter
          (fun z => key z = n)
        = acc.filter (fun z => key z = n) ++ l.filter (fun z => key z = n) := by
  intro l
  induction l with
  | nil => intro acc _; simp
  | cons x l' ih =>
    intro acc hs
    rw [List.foldl_cons, ih _ (sorted_insertRightRef key x acc hs),
      filter_insertRightRef key x n acc hs]
    by_cases hx : key x = n <;> simp [List.filter_cons, hx]

theorem sorted_foldl_insert :
    ∀ (l acc : List α), sortedByKey key acc →
      sortedByKey key (l.foldl (fun acc x => insertRightRef (keyLt key) x acc) acc) := by
  intro l
  induction l with
  | nil => intro acc hs; simpa using hs
  | cons x l' ih =>
    intro acc hs
    rw [List.foldl_cons]
    exact ih _ (sorted_insertRightRef key x acc hs)

theorem sorted_isortKey (l : List α) : sortedByKey key (isortKey key l) :=
  sorted_foldl_insert key l [] (List.Pairwise.nil)

theorem filter_isortKey (n : Nat) (l : List α) :
    (isortKey key l).filter (fun z => key z = n) = l.filter (fun z => key z = n) := by
  unfold isortKey
  rw [filter_foldl_insert key n l [] List.Pairwise.nil]
  simp

/-! The swap-based `insertionSort_func` computes the reference sort. -/

theorem getD_append_length (y : α) :
    ∀ (p s : List α), (p ++ y :: s).getD p.length default = y := by
  intro p
  induction p with
  | nil => intro s; rfl
  | cons z p' ih => intro s; simpa using ih s

theorem set_append_length (y w : α) :
    ∀ (p s : List α), (p ++ y :: s).set p.length w = p ++ w :: s := by
  intro p
  induction p with
  | nil => intro s; rfl
  | cons z p' ih => intro s; simp [ih s]

theorem lswap_adjacent (u v : α) (p s : List α) :
    lswap (p ++ u :: v :: s) (p.length + 1) p.length = p ++ v :: u :: s := by
  unfold lswap
  rw [if_pos ?hb]
  case hb =>
    constructor <;> (simp only [List.length_append, List.length_cons]; omega)
  have h2 : (p ++ u :: v :: s).getD p.length default = u := getD_append_length u p _
  have h1 : (p ++ u :: v :: s).getD (p.length + 1) default = v := by
    have h := getD_append_length v (p ++ [u]) s
    simpa using h
  rw [h1, h2]
  have hstep1 : (p ++ u :: v :: s).set (p.length + 1) u = p ++ u :: u :: s := by
    have h := set_append_length v u (p ++ [u]) s
    simpa using h
  rw [hstep1, set_append_length]

theorem insertRightRef_append_of_lt (key : α → Nat) (x y : α)
    (hxy : key y < key x) :
    ∀ p : List α, insertRightRef (keyLt key) x (p ++ [y])
      = insertRightRef (keyLt key) x p ++ [y] := by
  intro p
  induction p with
  | nil =>
    simp only [List.nil_append, insertRightRef]
    rw [if_pos (by simpa [keyLt] using hxy)]
    rfl
  | cons z p' ih =>
    simp only [List.cons_append, insertRightRef, List.append_eq]
    split
    · rfl
    · rw [ih]
      rfl

theorem insertRightRef_append_of_ge (key : α → Nat) (x : α) :
    ∀ p : List α, (∀ z ∈ p, key x ≤ key z) →
      insertRightRef (keyLt key) x p = p ++ [x] := by
  intro p
  induction p with
  | nil => intro _; rfl
  | cons z p' ih =>
    intro hall
    simp only [insertRightRef]
    rw [if_neg, ih fun w hw => hall w (List.mem_cons_of_mem z hw)]
    · rfl
    · have := hall z (List.mem_cons_self z p')
      simp [keyLt]
      omega

theorem insertInnerGo_spec (key : α → Nat) (x : α) :
    ∀ (p : List α) (r : List α), sortedByKey key p →
      insertInnerGo (keyLt key) (p ++ x :: r) 0 p.length
        = insertRightRef (keyLt key) x p ++ r := by
  intro p
  induction p using List.reverseRecOn with
  | nil => intro r _; rfl
  | append_singleton p' y ih =>
    intro r hs
    have hlist : p' ++ [y] ++ x :: r = p' ++ y :: x :: r := by simp
    have hlen : (p' ++ [y]).length = p'.length + 1 := by simp
    rw [hlist, hlen]
    unfold insertInnerGo
    have hgd1 : (p' ++ y :: x :: r).getD (p'.length + 1) default = x := by
      have h := getD_append_length x (p' ++ [y]) r
      simpa using h
    have hgd2 : (p' ++ y :: x :: r).getD p'.length default = y :=
      getD_append_length y p' _
    by_cases hlt : key y < key x
    · rw [if_pos]
      · rw [lswap_adjacent y x p' r]
        have hs' : sortedByKey key p' := by
          rw [sortedByKey] at hs ⊢
          exact hs.sublist (List.sublist_append_left p' [y])
        rw [ih (y :: r) hs', insertRightRef_append_of_lt key x y hlt p']
        simp
      · refine ⟨Nat.succ_pos _, ?_⟩
        simp only [lless]
        rw [hgd1, hgd2]
        simpa [keyLt] using hlt
    · rw [if_neg]
      · rw [insertRightRef_append_of_ge key x (p' ++ [y])]
        · simp
        · intro z hz
          rcases List.mem_append.mp hz with hz | hz
          · rw [sortedByKey] at hs
            have hzy : key y ≤ key z := by
              have hpa := List.pairwise_append.mp hs
              exact hpa.2.2 z hz y (List.mem_singleton_self y)
            omega
          · rw [List.mem_singleton.mp hz]
            omega
      · intro hc
        have hc2 := hc.2
        simp only [lless] at hc2
        rw [hgd1, hgd2] at hc2
        simp only [keyLt, decide_eq_true_iff] at hc2
        omega

theorem insertOuterGo_spec (key : α → Nat) :
    ∀ (rest p : List α) (fuel : Nat), rest.length < fuel → sortedByKey key p →
      insertOuterGo (keyLt key) fuel (p ++ rest) 0 (p ++ rest).length p.length
        = rest.foldl (fun acc x => insertRightRef (keyLt key) x acc) p := by
  intro rest
  induction rest with
  | nil =>
    intro p fuel hf _
    match fuel, hf with
    | fuel + 1, _ =>
      unfold insertOuterGo
      rw [if_neg (by simp)]
      simp
  | cons x rest' ih =>
    intro p fuel hf hs
    match fuel, hf with
    | fuel + 1, hf =>
      unfold insertOuterGo
      rw [if_pos (by simp only [List.length_append, List.length_cons]; omega)]
      have hinner : insertInnerGo (keyLt key) (p ++ x :: rest') 0 p.length
          = insertRightRef (keyLt key) x p ++ rest' :=
        insertInnerGo_spec key x p rest' hs
      rw [hinner]
      have hlen2 : (p ++ x :: rest').length
          = (insertRightRef (keyLt key) x p ++ rest').length := by
        simp only [List.length_append, List.length_cons, length_insertRightRef]
        omega
      have hlen3 : p.length + 1 = (insertRightRef (keyLt key) x p).length := by
        rw [length_insertRightRef]
      rw [hlen2, hlen3,
        ih (insertRightRef (keyLt key) x p) fuel (by simpa using hf)
          (sorted_insertRightRef key x p hs)]
      simp

theorem insertionSortGo_eq_isortKey (key : α → Nat) (l : List α) :
    insertionSortGo (keyLt key) l 0 l.length = isortKey key l := by
  cases l with
  | nil => rfl
  | cons z t =>
    unfold insertionSortGo
    have h0 : (z :: t : List α) = [z] ++ t := rfl
    have h1 : (z :: t : List α).length = ([z] ++ t).length := by rw [← h0]
    rw [h0]
    have := insertOuterGo_spec key t [z] (([z] ++ t).length + 1)
      (by simp; omega) (by simp [sortedByKey])
    simpa [isortKey] using this

theorem sortSliceGo_short_sorted_stable (key : α → Nat) (l : List α)
    (hl : l.length ≤ 12) :
    sortSliceGo (keyLt key) l = isortKey key l ∧
    sortedByKey key (sortSliceGo (keyLt key) l) ∧
    ∀ n, (sortSliceGo (keyLt key) l).filter (fun z => key z = n)
      = l.filter (fun z => key z = n) := by
  have he : sortSliceGo (keyLt key) l = isortKey key l := by
    rw [sortSliceGo_of_short (keyLt key) l hl, insertionSortGo_eq_isortKey]
  refine ⟨he, ?_, ?_⟩
  · rw [he]; exact sorted_isortKey key l
  · intro n; rw [he]; exact filter_isortKey key n l

end KeySort

/-!
The engine (src/internal/engine/engine.go) and the scanner state it
consumes.  `Scan` either fails (aborting `FindDuplicates` before the
stored group list is touched) or yields the collected file records;
`filesBySize` and the two hash maps of `processExactMatches` are Go
maps, modelled as insertion-ordered association lists (Go randomizes
map iteration order; every claim settled against this embedding is
order-insensitive except where the randomization itself is noted).
`id` models the `*fs.File` pointer identity used by the `processed` set
of `processFuzzyMatches`: distinct records always have distinct
pointers, rendered as a `Nodup` hypothesis on ids.
-/

/-- matcher.go `Match` (the result record). -/
structure MatchRec where
  first : GoFile
  second : GoFile
  percentage : Nat
deriving DecidableEq, Repr

/-- engine.go `DuplicateGroup`. -/
structure Group where
  reference : GoFile
  duplicates : List GoFile
  matchList : List MatchRec
deriving DecidableEq, Repr

instance : Inhabited Group := ⟨⟨⟨0, "", 0, [], false⟩, [], []⟩⟩

/-- matcher.go `Match` dispatch: exact mode compares content digests,
fuzzy mode compares the word lists `File.ExtractWords` produces (the fs
extractor). -/
def goMatch (h : List Nat → List Nat) (opts : MatchOptions) (f1 f2 : GoFile) : Nat :=
  match opts.matchType with
  | .exact => matchExact h f1 f2
  | .fuzzy => compareWords opts (extractWordsFs f1.name) (extractWordsFs f2.name)

/-- Append `x` to the bucket of `k`, creating the bucket at the end on
first sight of the key: one `m[k] = append(m[k], x)` step. -/
def addToBucket {κ α : Type} [DecidableEq κ] (k : κ) (x : α) :
    List (κ × List α) → List (κ × List α)
  | [] => [(k, [x])]
  | (k', xs) :: rest =>
    if k' = k then (k', xs ++ [x]) :: rest else (k', xs) :: addToBucket k x rest

/-- Build a Go map keyed by `key`, skipping elements whose key
computation fails (the `continue` on hash error). -/
def groupByKey {κ α : Type} [DecidableEq κ] (key : α → Option κ) (items : List α) :
    List (κ × List α) :=
  items.foldl (fun acc x =>
    match key x with
    | none => acc
    | some k => addToBucket k x acc) []

/-- The hash chosen by `processExactMatches` for the first partition:
partial digest for large files, full digest otherwise; `none` skips the
file. -/
def exactHashKey (h : List Nat → List Nat) (f : GoFile) : Option (List Nat) :=
  if minPartialSize ≤ f.size then getPartialDigest h f else getDigest h f

/-- engine.go `createDuplicateGroup`: first file is the reference, the
rest are duplicates, each matched against the reference (empty input is
unreachable: every caller passes a bucket of length at least 2). -/
def createDuplicateGroup (h : List Nat → List Nat) (opts : MatchOptions)
    (files : List GoFile) : List Group :=
  match files with
  | [] => []
  | reference :: duplicates =>
    [{ reference := reference, duplicates := duplicates,
       matchList := duplicates.map fun d => ⟨reference, d, goMatch h opts reference d⟩ }]

/-- The groups one full-digest partition contributes (engine.go lines
127-133): nothing below 2 members, else one group. -/
def exactFullGroups (h : List Nat → List Nat) (opts : MatchOptions)
    (kv : List Nat × List GoFile) : List Group :=
  if kv.2.length < 2 then [] else createDuplicateGroup h opts kv.2

/-- The groups one first-level hash partition contributes (engine.go
lines 107-138): skipped below 2 members; refined by full digest when the
files are large; one group otherwise. -/
def exactBucketGroups (h : List Nat → List Nat) (opts : MatchOptions)
    (kv : List Nat × List GoFile) : List Group :=
  if kv.2.length < 2 then []
  else
    match kv.2 with
    | [] => []
    | f0 :: _ =>
      if minPartialSize ≤ f0.size then
        (groupByKey (getDigest h) kv.2).foldl
          (fun acc2 kv2 => acc2 ++ exactFullGroups h opts kv2) []
      else createDuplicateGroup h opts kv.2

/-- engine.go `processExactMatches`: partition by (partial or full)
digest; partitions of large files are refined by full digest; every
final partition of size at least 2 becomes one group, appended in
iteration order. -/
def processExactMatches (h : List Nat → List Nat) (opts : MatchOptions)
    (files : List GoFile) : List Group :=
  (groupByKey (exactHashKey h) files).foldl
    (fun acc kv => acc ++ exactBucketGroups h opts kv) []

/-- The inner loop of `processFuzzyMatches`: scan every file of the
bucket against the candidate reference `f`, skipping `f` itself and
already-claimed files, claiming (and marking processed) each file whose
score reaches the threshold. -/
def fuzzyScan (h : List Nat → List Nat) (opts : MatchOptions) (f : GoFile)
    (all : List GoFile) (proc : List Nat) :
    List MatchRec × List GoFile × List Nat :=
  all.foldl (fun st other =>
    if other.id = f.id ∨ other.id ∈ st.2.2 then st
    else
      let pct := goMatch h opts f other
      if opts.minMatchPercent ≤ pct then
        (st.1 ++ [⟨f, other, pct⟩], st.2.1 ++ [other], other.id :: st.2.2)
      else st) ([], [], proc)

/-- The outer loop of `processFuzzyMatches`: each not-yet-claimed file
becomes a candidate reference; a group forms when it claims at least one
duplicate. -/
def processFuzzyAux (h : List Nat → List Nat) (opts : MatchOptions) :
    List GoFile → List GoFile → List Nat → List Group
  | [], _, _ => []
  | f :: iter, all, proc =>
    if f.id ∈ proc then processFuzzyAux h opts iter all proc
    else
      match fuzzyScan h opts f all proc with
      | (ms, dups, proc') =>
        if dups.isEmpty then processFuzzyAux h opts iter all proc'
        else ⟨f, dups, ms⟩ :: processFuzzyAux h opts iter all (f.id :: proc')

/-- engine.go `processFuzzyMatches`. -/
def processFuzzyMatches (h : List Nat → List Nat) (opts : MatchOptions)
    (files : List GoFile) : List Group :=
  processFuzzyAux h opts files files []

/-- engine.go `processFileGroup`: buckets below 2 files are skipped;
otherwise dispatch on the matcher type. -/
def processFileGroup (h : List Nat → List Nat) (opts : MatchOptions)
    (files : List GoFile) : List Group :=
  if files.length < 2 then []
  else
    match opts.matchType with
    | .exact => processExactMatches h opts files
    | .fuzzy => processFuzzyMatches h opts files

/-- The scanner as the engine sees it: `Scan` fails or yields the
collected records. -/
structure ScannerModel where
  scanResult : Except String (List GoFile)

/-- engine.go `Engine`: scanner, matcher options, and the stored group
list (the matcher's digest function is passed explicitly). -/
structure Engine where
  scanner : ScannerModel
  opts : MatchOptions
  groups : List Group

/-- One size bucket's contribution to `GetPotentialDuplicates`: kept
only with at least 2 records. -/
def potentialBucket (kv : Int × List GoFile) : List (List GoFile) :=
  if 1 < kv.2.length then [kv.2] else []

/-- scanner.go `filesBySize` plus `GetPotentialDuplicates`: group by
size, keep buckets with at least 2 records. -/
def getPotentialDuplicates (files : List GoFile) : List (List GoFile) :=
  (groupByKey (fun f => some f.size) files).foldl
    (fun acc kv => acc ++ potentialBucket kv) []

/-- The comparator of engine.go line 60:
`len(groups[i].Duplicates) > len(groups[j].Duplicates)`. -/
def groupLtGo (g1 g2 : Group) : Bool := decide (g2.duplicates.length < g1.duplicates.length)

/-- The `sort.Slice` call on the accumulated groups. -/
def sortGroups (gs : List Group) : List Group := sortSliceGo groupLtGo gs

/-- The group list built by one successful `FindDuplicates` pass before
sorting (discovery order). -/
def buildGroups (h : List Nat → List Nat) (opts : MatchOptions)
    (files : List GoFile) : List Group :=
  (getPotentialDuplicates files).foldl
    (fun acc bucket => acc ++ processFileGroup h opts bucket) []

/-- engine.go `FindDuplicates`: a scan error aborts before the stored
groups are reset; otherwise the freshly built, sorted list replaces the
stored one and is returned. -/
def findDuplicates (h : List Nat → List Nat) (e : Engine) :
    Except String (List Group) × Engine :=
  match e.scanner.scanResult with
  | .error msg => (.error ("scan error: " ++ msg), e)
  | .ok files =>
    let gs := sortGroups (buildGroups h e.opts files)
    (.ok gs, { e with groups := gs })

/-- engine.go `GetGroups`. -/
def getGroups (e : Engine) : List Group := e.groups

/-- engine.go `GetTotalDuplicateCount`. -/
def getTotalDuplicateCount (e : Engine) : Nat :=
  (e.groups.map fun g => g.duplicates.length).sum

/-- engine.go `GetTotalDuplicateSize`. -/
def getTotalDuplicateSize (e : Engine) : Int :=
  (e.groups.map fun g => (g.duplicates.map fun d => d.size).sum).sum

/-- Claim C9: when the scan fails, `FindDuplicates` returns the error
(with a nil group list) and the engine state is untouched — `GetGroups`,
`GetTotalDuplicateCount` and `GetTotalDuplicateSize` still report the
previous successful run. -/
theorem findDuplicates_scan_error_preserves_groups (h : List Nat → List Nat)
    (e : Engine) (msg : String) (he : e.scanner.scanResult = .error msg) :
    findDuplicates h e = (.error ("scan error: " ++ msg), e) ∧
    getGroups (findDuplicates h e).2 = getGroups e ∧
    getTotalDuplicateCount (findDuplicates h e).2 = getTotalDuplicateCount e ∧
    getTotalDuplicateSize (findDuplicates h e).2 = getTotalDuplicateSize e := by
  unfold findDuplicates
  rw [he]
  exact ⟨rfl, rfl, rfl, rfl⟩

/-- A previous-run engine state used by the C9 witness: one stored group
and a scanner whose next scan fails. -/
def failedScanEngine : Engine :=
  { scanner := ⟨.error "permission denied"⟩,
    opts := cliFuzzyOptions 80,
    groups := [⟨⟨0, "a.txt", 1, [7], false⟩, [⟨1, "b.txt", 1, [7], false⟩], []⟩] }

theorem findDuplicates_scan_error_preserves_groups_witness :
    failedScanEngine.scanner.scanResult = .error "permission denied" ∧
    failedScanEngine.groups.length = 1 ∧
    getGroups (findDuplicates id failedScanEngine).2 = getGroups failedScanEngine ∧
    getTotalDuplicateCount (findDuplicates id failedScanEngine).2 =
      getTotalDuplicateCount failedScanEngine := by
  refine ⟨rfl, rfl, ?_, ?_⟩
  · exact (findDuplicates_scan_error_preserves_groups id failedScanEngine
      "permission denied" rfl).2.1
  · exact (findDuplicates_scan_error_preserves_groups id failedScanEngine
      "permission denied" rfl).2.2.1

/-!
Claim C4: the group-list sort.  `FindDuplicates` sorts with `sort.Slice`
keyed only on the duplicate count, descending — but `sort.Slice` is
unstable (pattern-defeating quicksort with a 12-element insertion-sort
cutoff), so "ties keep discovery order" fails once 13 or more groups
accumulate.
-/

/-- The matcher options `runScan` builds for a content scan. -/
def cliExactOptions (minMatch : Nat) : MatchOptions :=
  { matchType := .exact, minMatchPercent := minMatch,
    weightByLength := true, matchSimilar := true }

/-- One size bucket of two identical files (sizes are distinct across
`k`, so each pair is its own bucket and yields one group with one
duplicate). -/
def tiePair (k : Nat) : List GoFile :=
  [⟨2 * k, "x.bin", (k + 1 : Int), List.replicate (k + 1) 0, false⟩,
   ⟨2 * k + 1, "x.bin", (k + 1 : Int), List.replicate (k + 1) 0, false⟩]

/-- Twelve one-duplicate buckets followed by one three-duplicate bucket:
13 groups, 12 of them tied on count 1. -/
def sortCexFiles : List GoFile :=
  ((List.range 12).flatMap tiePair) ++
  [⟨24, "x.bin", 13, List.replicate 13 0, false⟩,
   ⟨25, "x.bin", 13, List.replicate 13 0, false⟩,
   ⟨26, "x.bin", 13, List.replicate 13 0, false⟩,
   ⟨27, "x.bin", 13, List.replicate 13 0, false⟩]

/-- An engine about to scan the 13-bucket layout in content mode. -/
def sortCexEngine : Engine := ⟨⟨.ok sortCexFiles⟩, cliExactOptions 80, []⟩

/-- Claim C4 counterexample: the run discovers 13 groups — reference ids
0, 2, ..., 22 with one duplicate each, then id 24 with three — but the
returned list has the count-1 groups in order 12, 4, 6, 8, 10, 0, 14,
16, 18, 20, 22, 2: equal-count groups do not keep their discovery order
(a stable sort would return 24, 0, 2, ..., 22).  The list is still
sorted by descending count. -/
theorem findDuplicates_sort_unstable_cex :
    (buildGroups id (cliExactOptions 80) sortCexFiles).map
        (fun g => (g.reference.id, g.duplicates.length))
      = [(0, 1), (2, 1), (4, 1), (6, 1), (8, 1), (10, 1), (12, 1), (14, 1),
         (16, 1), (18, 1), (20, 1), (22, 1), (24, 3)] ∧
    (findDuplicates id sortCexEngine).1
      = .ok (sortGroups (buildGroups id (cliExactOptions 80) sortCexFiles)) ∧
    (sortGroups (buildGroups id (cliExactOptions 80) sortCexFiles)).map
        (fun g => (g.reference.id, g.duplicates.length))
      = [(24, 3), (12, 1), (4, 1), (6, 1), (8, 1), (10, 1), (0, 1), (14, 1),
         (16, 1), (18, 1), (20, 1), (22, 1), (2, 1)] ∧
    ([(24, 3), (12, 1), (4, 1), (6, 1), (8, 1), (10, 1), (0, 1), (14, 1),
      (16, 1), (18, 1), (20, 1), (22, 1), (2, 1)] : List (Nat × Nat))
      ≠ [(24, 3), (0, 1), (2, 1), (4, 1), (6, 1), (8, 1), (10, 1), (12, 1),
         (14, 1), (16, 1), (18, 1), (20, 1), (22, 1)] := by
  refine ⟨by decide, by rfl, by decide, by decide⟩

/-- Claim C4 (amended): after every successful `FindDuplicates` call the
returned list is the discovered group list permuted by Go's `sort.Slice`
with sort key the duplicate count only; the sort is not stable — with 13
or more groups ties may be reordered — but whenever at most 12 groups
were discovered the underlying insertion sort sorts them by descending
duplicate count with ties in discovery order. -/
theorem findDuplicates_sorted_amended (h : List Nat → List Nat) (e : Engine)
    (files : List GoFile) (he : e.scanner.scanResult = .ok files) :
    (findDuplicates h e).1 = .ok (sortGroups (buildGroups h e.opts files)) ∧
    (sortGroups (buildGroups h e.opts files)).Perm (buildGroups h e.opts files) ∧
    ((buildGroups h e.opts files).length ≤ 12 →
      List.Pairwise (fun g1 g2 => g2.duplicates.length ≤ g1.duplicates.length)
        (sortGroups (buildGroups h e.opts files)) ∧
      ∀ n, (sortGroups (buildGroups h e.opts files)).filter
          (fun g => g.duplicates.length = n)
        = (buildGroups h e.opts files).filter
          (fun g => g.duplicates.length = n)) := by
  refine ⟨?_, ?_, ?_⟩
  · unfold findDuplicates
    rw [he]
  · exact sortSliceGo_perm groupLtGo _
  · intro hle
    have hmain := sortSliceGo_short_sorted_stable
      (fun g : Group => g.duplicates.length) (buildGroups h e.opts files) hle
    exact ⟨hmain.2.1, hmain.2.2⟩

/-- A two-bucket engine for the C4 witness (2 groups, both count 1). -/
def smallSortEngine : Engine := ⟨⟨.ok (tiePair 0 ++ tiePair 1)⟩, cliExactOptions 80, []⟩

theorem findDuplicates_sorted_amended_witness :
    smallSortEngine.scanner.scanResult = .ok (tiePair 0 ++ tiePair 1) ∧
    (buildGroups id smallSortEngine.opts (tiePair 0 ++ tiePair 1)).length ≤ 12 ∧
    (findDuplicates id smallSortEngine).1
      = .ok (sortGroups (buildGroups id smallSortEngine.opts (tiePair 0 ++ tiePair 1))) ∧
    List.Pairwise (fun g1 g2 => g2.duplicates.length ≤ g1.duplicates.length)
      (sortGroups (buildGroups id smallSortEngine.opts (tiePair 0 ++ tiePair 1))) ∧
    (sortGroups (buildGroups id smallSortEngine.opts (tiePair 0 ++ tiePair 1))).filter
        (fun g => g.duplicates.length = 1)
      = (buildGroups id smallSortEngine.opts (tiePair 0 ++ tiePair 1)).filter
        (fun g => g.duplicates.length = 1) := by
  have hc := findDuplicates_sorted_amended id smallSortEngine
    (tiePair 0 ++ tiePair 1) rfl
  have hle : (buildGroups id smallSortEngine.opts (tiePair 0 ++ tiePair 1)).length
      ≤ 12 := by decide
  exact ⟨rfl, hle, hc.1, (hc.2.2 hle).1, (hc.2.2 hle).2 1⟩

/-!
Claim C10: group disjointness and the duplicates/matches alignment.
The member ids of all produced groups form a list with no duplicates
(each record is in at most one group, as reference or duplicate, and
groups are pairwise disjoint), and every group has as many matches as
duplicates.  Pointer distinctness of the Go records is the `Nodup`
hypothesis on ids.
-/

/-- The ids a group occupies: its reference and all its duplicates. -/
def memberIds (g : Group) : List Nat := g.reference.id :: g.duplicates.map fun d => d.id

theorem foldl_append_eq_flatMap {γ β : Type} (F : γ → List β) :
    ∀ (kvs : List γ) (acc : List β),
      kvs.foldl (fun a kv => a ++ F kv) acc = acc ++ kvs.flatMap F := by
  intro kvs
  induction kvs with
  | nil => intro acc; simp
  | cons kv kvs ih => intro acc; simp [ih]

theorem subperm_nodup {β : Type} {l1 l2 : List β} (h : l1.Subperm l2)
    (hn : l2.Nodup) : l1.Nodup := by
  obtain ⟨m, hp, hs⟩ := h
  exact (List.Perm.nodup_iff hp).mp (hs.nodup hn)

theorem subperm_map {β γ : Type} (f : β → γ) {l1 l2 : List β} (h : l1.Subperm l2) :
    (l1.map f).Subperm (l2.map f) := by
  obtain ⟨m, hp, hs⟩ := h
  exact ⟨m.map f, hp.map f, hs.map f⟩

theorem subperm_append {β : Type} {a b c d : List β} (h1 : a.Subperm b)
    (h2 : c.Subperm d) : (a ++ c).Subperm (b ++ d) := by
  obtain ⟨m1, hp1, hs1⟩ := h1
  obtain ⟨m2, hp2, hs2⟩ := h2
  exact ⟨m1 ++ m2, hp1.append hp2, hs1.append hs2⟩

theorem flatMap_subperm {γ β : Type} (G H : γ → List β) :
    ∀ (kvs : List γ), (∀ kv ∈ kvs, (G kv).Subperm (H kv)) →
      (kvs.flatMap G).Subperm (kvs.flatMap H) := by
  intro kvs
  induction kvs with
  | nil => intro _; simp
  | cons kv kvs ih =>
    intro hall
    simp only [List.flatMap_cons]
    exact subperm_append (hall kv (List.mem_cons_self kv kvs))
      (ih fun k hk => hall k (List.mem_cons_of_mem kv hk))

theorem flatten_addToBucket {κ β : Type} [DecidableEq κ] (k : κ) (x : β) :
    ∀ acc : List (κ × List β),
      ((addToBucket k x acc).flatMap fun kv => kv.2).Perm
        (x :: acc.flatMap fun kv => kv.2) := by
  intro acc
  induction acc with
  | nil => simp [addToBucket]
  | cons kv rest ih =>
    obtain ⟨k', xs⟩ := kv
    by_cases hk : k' = k
    · simp only [addToBucket, if_pos hk, List.flatMap_cons]
      rw [List.append_assoc]
      exact List.perm_middle
    · simp only [addToBucket, if_neg hk, List.flatMap_cons]
      exact (ih.append_left xs).trans List.perm_middle

theorem groupByKey_flatten_subperm {κ β : Type} [DecidableEq κ] (key : β → Option κ) :
    ∀ (items : List β) (acc : List (κ × List β)),
      ((items.foldl (fun acc x =>
          match key x with
          | none => acc
          | some k => addToBucket k x acc) acc).flatMap fun kv => kv.2).Subperm
        ((acc.flatMap fun kv => kv.2) ++ items) := by
  intro items
  induction items with
  | nil =>
    intro acc
    simp only [List.foldl_nil, List.append_nil]
    exact List.Subperm.refl _
  | cons x items ih =>
    intro acc
    rw [List.foldl_cons]
    cases hx : key x with
    | none =>
      refine (ih acc).trans ?_
      exact subperm_append (List.Subperm.refl _)
        (List.sublist_cons_self x items).subperm
    | some k =>
      refine (ih (addToBucket k x acc)).trans ?_
      refine List.Perm.subperm ?_
      refine ((flatten_addToBucket k x acc).append_right items).trans ?_
      exact List.perm_middle.symm

theorem groupByKey_flatten_subperm' {κ β : Type} [DecidableEq κ] (key : β → Option κ)
    (items : List β) :
    ((groupByKey key items).flatMap fun kv => kv.2).Subperm items := by
  have h := groupByKey_flatten_subperm key items []
  simpa [groupByKey] using h

theorem createDuplicateGroup_members (h : List Nat → List Nat) (opts : MatchOptions) :
    ∀ files : List GoFile,
      ((createDuplicateGroup h opts files).flatMap memberIds)
        = files.map fun f => f.id := by
  intro files
  cases files with
  | nil => rfl
  | cons f rest => simp [createDuplicateGroup, memberIds]

theorem createDuplicateGroup_matchLen (h : List Nat → List Nat) (opts : MatchOptions)
    (files : List GoFile) (g : Group) (hg : g ∈ createDuplicateGroup h opts files) :
    g.duplicates.length = g.matchList.length := by
  cases files with
  | nil => cases hg
  | cons f rest =>
    rcases List.mem_singleton.mp hg with rfl
    simp

theorem exactFullGroups_members_subperm (h : List Nat → List Nat)
    (opts : MatchOptions) (kv : List Nat × List GoFile) :
    ((exactFullGroups h opts kv).flatMap memberIds).Subperm
      (kv.2.map fun f => f.id) := by
  unfold exactFullGroups
  split
  · simp
  · rw [createDuplicateGroup_members]

theorem exactBucketGroups_members_subperm (h : List Nat → List Nat)
    (opts : MatchOptions) (kv : List Nat × List GoFile) :
    ((exactBucketGroups h opts kv).flatMap memberIds).Subperm
      (kv.2.map fun f => f.id) := by
  unfold exactBucketGroups
  split
  · simp
  · split
    · simp
    · split
      · rw [foldl_append_eq_flatMap (exactFullGroups h opts), List.nil_append,
          List.flatMap_assoc]
        refine (flatMap_subperm _ (fun kv2 => kv2.2.map fun f => f.id) _
          (fun kv2 _ => exactFullGroups_members_subperm h opts kv2)).trans ?_
        rw [← List.map_flatMap]
        exact subperm_map _ (groupByKey_flatten_subperm' (getDigest h) kv.2)
      · rw [createDuplicateGroup_members]

theorem processExactMatches_members_subperm (h : List Nat → List Nat)
    (opts : MatchOptions) (files : List GoFile) :
    ((processExactMatches h opts files).flatMap memberIds).Subperm
      (files.map fun f => f.id) := by
  unfold processExactMatches
  rw [foldl_append_eq_flatMap (exactBucketGroups h opts), List.nil_append,
    List.flatMap_assoc]
  refine (flatMap_subperm _ (fun kv => kv.2.map fun f => f.id) _
    (fun kv _ => exactBucketGroups_members_subperm h opts kv)).trans ?_
  rw [← List.map_flatMap]
  exact subperm_map _ (groupByKey_flatten_subperm' (exactHashKey h) files)

theorem exactFullGroups_matchLen (h : List Nat → List Nat) (opts : MatchOptions)
    (kv : List Nat × List GoFile) (g : Group) (hg : g ∈ exactFullGroups h opts kv) :
    g.duplicates.length = g.matchList.length := by
  unfold exactFullGroups at hg
  split at hg
  · cases hg
  · exact createDuplicateGroup_matchLen h opts kv.2 g hg

theorem exactBucketGroups_matchLen (h : List Nat → List Nat) (opts : MatchOptions)
    (kv : List Nat × List GoFile) (g : Group) (hg : g ∈ exactBucketGroups h opts kv) :
    g.duplicates.length = g.matchList.length := by
  unfold exactBucketGroups at hg
  split at hg
  · cases hg
  · split at hg
    · cases hg
    · split at hg
      · rw [foldl_append_eq_flatMap (exactFullGroups h opts), List.nil_append] at hg
        obtain ⟨kv2, _, hg2⟩ := List.mem_flatMap.mp hg
        exact exactFullGroups_matchLen h opts kv2 g hg2
      · exact createDuplicateGroup_matchLen h opts kv.2 g hg

theorem processExactMatches_matchLen (h : List Nat → List Nat) (opts : MatchOptions)
    (files : List GoFile) (g : Group) (hg : g ∈ processExactMatches h opts files) :
    g.duplicates.length = g.matchList.length := by
  unfold processExactMatches at hg
  rw [foldl_append_eq_flatMap (exactBucketGroups h opts), List.nil_append] at hg
  obtain ⟨kv, _, hg2⟩ := List.mem_flatMap.mp hg
  exact exactBucketGroups_matchLen h opts kv g hg2

/-- Invariant of the inner `processFuzzyMatches` scan, relative to the
candidate reference `f`, the processed set `proc` at scan start, and the
bucket `all0`: the live processed set is exactly the claimed ids (in
reverse claim order) on top of `proc`; matches and duplicates stay
aligned; claimed ids are distinct, unclaimed at scan start, never the
reference, and drawn from the bucket. -/
def ScanInv (f : GoFile) (proc : List Nat) (all0 : List GoFile)
    (st : List MatchRec × List GoFile × List Nat) : Prop :=
  st.2.2 = (st.2.1.map fun d => d.id).reverse ++ proc ∧
  st.1.length = st.2.1.length ∧
  (st.2.1.map fun d => d.id).Nodup ∧
  ∀ d ∈ st.2.1, d.id ∉ proc ∧ d.id ≠ f.id ∧ d ∈ all0

theorem fuzzyScan_fold_inv (h : List Nat → List Nat) (opts : MatchOptions)
    (f : GoFile) (proc : List Nat) (all0 : List GoFile) :
    ∀ (rem : List GoFile) (st : List MatchRec × List GoFile × List Nat),
      ScanInv f proc all0 st → (∀ d ∈ rem, d ∈ all0) →
      ScanInv f proc all0 (rem.foldl (fun st other =>
        if other.id = f.id ∨ other.id ∈ st.2.2 then st
        else
          let pct := goMatch h opts f other
          if opts.minMatchPercent ≤ pct then
            (st.1 ++ [⟨f, other, pct⟩], st.2.1 ++ [other], other.id :: st.2.2)
          else st) st) := by
  intro rem
  induction rem with
  | nil => intro st hinv _; exact hinv
  | cons other rem ih =>
    intro st hinv hall
    rw [List.foldl_cons]
    refine ih _ ?_ fun d hd => hall d (List.mem_cons_of_mem other hd)
    by_cases hskip : other.id = f.id ∨ other.id ∈ st.2.2
    · simpa [hskip] using hinv
    · push_neg at hskip
      obtain ⟨hne, hnotin⟩ := hskip
      rw [hinv.1] at hnotin
      have hnotdup : other.id ∉ st.2.1.map fun d => d.id := fun hc =>
        hnotin (List.mem_append.mpr (Or.inl (List.mem_reverse.mpr hc)))
      have hnotproc : other.id ∉ proc := fun hc =>
        hnotin (List.mem_append.mpr (Or.inr hc))
      simp only [if_neg (not_or.mpr ⟨hne, hinv.1 ▸ hnotin⟩)]
      split
      · refine ⟨?_, ?_, ?_, ?_⟩
        · simp only [List.map_append, List.reverse_append, List.map_cons,
            List.map_nil, List.reverse_cons, List.reverse_nil, List.nil_append,
            List.cons_append]
          rw [hinv.1]
        · simp [hinv.2.1]
        · simp only [List.map_append, List.map_cons, List.map_nil]
          rw [List.nodup_append]
          refine ⟨hinv.2.2.1, List.nodup_singleton _, ?_⟩
          intro a ha hb
          rw [List.mem_singleton.mp hb] at ha
          exact hnotdup ha
        · intro d hd
          rcases List.mem_append.mp hd with hd | hd
          · exact hinv.2.2.2 d hd
          · rcases List.mem_singleton.mp hd with rfl
            exact ⟨hnotproc, hne, hall _ (List.mem_cons_self _ _)⟩
      · exact hinv

theorem fuzzyScan_inv (h : List Nat → List Nat) (opts : MatchOptions)
    (f : GoFile) (all0 : List GoFile) (proc : List Nat) :
    ScanInv f proc all0 (fuzzyScan h opts f all0 proc) := by
  unfold fuzzyScan
  exact fuzzyScan_fold_inv h opts f proc all0 all0 ([], [], proc)
    ⟨by simp, rfl, List.nodup_nil, by simp⟩ (fun d hd => hd)

theorem processFuzzyAux_inv (h : List Nat → List Nat) (opts : MatchOptions)
    (all0 : List GoFile) :
    ∀ (iter : List GoFile) (proc : List Nat),
      (∀ f ∈ iter, f ∈ all0) →
      ((processFuzzyAux h opts iter all0 proc).flatMap memberIds).Nodup ∧
      (∀ i ∈ (processFuzzyAux h opts iter all0 proc).flatMap memberIds,
        i ∉ proc ∧ i ∈ all0.map fun d => d.id) ∧
      ∀ g ∈ processFuzzyAux h opts iter all0 proc,
        g.duplicates.length = g.matchList.length := by
  intro iter
  induction iter with
  | nil =>
    intro proc _
    refine ⟨by simp [processFuzzyAux], ?_, ?_⟩ <;> simp [processFuzzyAux]
  | cons f iter ih =>
    intro proc hall
    have hall' : ∀ x ∈ iter, x ∈ all0 := fun x hx => hall x (List.mem_cons_of_mem f hx)
    by_cases hf : f.id ∈ proc
    · simpa only [processFuzzyAux, if_pos hf] using ih proc hall'
    · have hinv := fuzzyScan_inv h opts f all0 proc
      rcases hfs : fuzzyScan h opts f all0 proc with ⟨ms, dups, proc'⟩
      rw [hfs] at hinv
      obtain ⟨hproc', hlen, hdnd, hdall⟩ := hinv
      dsimp only at hproc' hlen hdnd hdall
      simp only [processFuzzyAux, if_neg hf, hfs]
      by_cases hde : dups.isEmpty
      · have hdnil : dups = [] := List.isEmpty_iff.mp hde
        have hpp : proc' = proc := by
          rw [hproc', hdnil]
          simp
        simpa only [if_pos hde, hpp] using ih proc hall'
      · simp only [if_neg hde]
        have hrest := ih (f.id :: proc') hall'
        have hmem0 : memberIds ⟨f, dups, ms⟩ = f.id :: dups.map fun d => d.id := rfl
        have hfid_not_dups : f.id ∉ dups.map fun d => d.id := by
          intro hc
          obtain ⟨d, hd, hdeq⟩ := List.mem_map.mp hc
          exact (hdall d hd).2.1 hdeq
        have hsub : ∀ i ∈ f.id :: dups.map fun d => d.id, i ∈ f.id :: proc' := by
          intro i hi
          rcases List.mem_cons.mp hi with rfl | hi
          · exact List.mem_cons_self _ _
          · refine List.mem_cons_of_mem _ ?_
            rw [hproc']
            exact List.mem_append.mpr (Or.inl (List.mem_reverse.mpr hi))
        refine ⟨?_, ?_, ?_⟩
        · rw [List.flatMap_cons, hmem0]
          rw [List.nodup_append]
          refine ⟨List.nodup_cons.mpr ⟨hfid_not_dups, hdnd⟩, hrest.1, ?_⟩
          intro a ha hb
          exact (hrest.2.1 a hb).1 (hsub a ha)
        · intro i hi
          rw [List.flatMap_cons, hmem0] at hi
          rcases List.mem_append.mp hi with hi | hi
          · rcases List.mem_cons.mp hi with rfl | hi
            · exact ⟨hf, List.mem_map.mpr ⟨f, hall f (List.mem_cons_self f iter), rfl⟩⟩
            · obtain ⟨d, hd, hdeq⟩ := List.mem_map.mp hi
              exact ⟨hdeq ▸ (hdall d hd).1,
                List.mem_map.mpr ⟨d, (hdall d hd).2.2, hdeq⟩⟩
          · have hr := hrest.2.1 i hi
            refine ⟨fun hc => hr.1 ?_, hr.2⟩
            refine List.mem_cons_of_mem _ ?_
            rw [hproc']
            exact List.mem_append.mpr (Or.inr hc)
        · intro g hg
          rcases List.mem_cons.mp hg with rfl | hg
          · exact hlen.symm
          · exact hrest.2.2 g hg

theorem processFuzzyMatches_inv (h : List Nat → List Nat) (opts : MatchOptions)
    (files : List GoFile) :
    ((processFuzzyMatches h opts files).flatMap memberIds).Nodup ∧
    (∀ i ∈ (processFuzzyMatches h opts files).flatMap memberIds,
      i ∈ files.map fun d => d.id) ∧
    ∀ g ∈ processFuzzyMatches h opts files,
      g.duplicates.length = g.matchList.length := by
  have h0 := processFuzzyAux_inv h opts files files [] (fun f hf => hf)
  exact ⟨h0.1, fun i hi => (h0.2.1 i hi).2, h0.2.2⟩

theorem processFileGroup_inv (h : List Nat → List Nat) (opts : MatchOptions)
    (files : List GoFile) (hnd : (files.map fun f => f.id).Nodup) :
    ((processFileGroup h opts files).flatMap memberIds).Nodup ∧
    (∀ i ∈ (processFileGroup h opts files).flatMap memberIds,
      i ∈ files.map fun f => f.id) ∧
    ∀ g ∈ processFileGroup h opts files,
      g.duplicates.length = g.matchList.length := by
  unfold processFileGroup
  split
  · simp
  · cases opts.matchType with
    | exact =>
      have hsp := processExactMatches_members_subperm h opts files
      exact ⟨subperm_nodup hsp hnd, fun i hi => hsp.subset hi,
        fun g hg => processExactMatches_matchLen h opts files g hg⟩
    | fuzzy =>
      have hfz := processFuzzyMatches_inv h opts files
      exact ⟨hfz.1, hfz.2.1, hfz.2.2⟩

theorem nodup_of_flatMap_mem {γ β : Type} (Bf : γ → List β) :
    ∀ L : List γ, ((L.flatMap Bf).Nodup) → ∀ x ∈ L, (Bf x).Nodup := by
  intro L
  induction L with
  | nil => intro _ x hx; cases hx
  | cons y L ih =>
    intro hnd x hx
    rw [List.flatMap_cons, List.nodup_append] at hnd
    rcases List.mem_cons.mp hx with rfl | hx
    · exact hnd.1
    · exact ih hnd.2.1 x hx

theorem nodup_flatMap_of_sub {γ β : Type} (Bf Cf : γ → List β) :
    ∀ L : List γ, ((L.flatMap Bf).Nodup) →
      (∀ x ∈ L, (Cf x).Nodup ∧ ∀ b ∈ Cf x, b ∈ Bf x) →
      (L.flatMap Cf).Nodup := by
  intro L
  induction L with
  | nil => intro _ _; simp
  | cons y L ih =>
    intro hnd hC
    rw [List.flatMap_cons, List.nodup_append] at hnd ⊢
    refine ⟨(hC y (List.mem_cons_self y L)).1,
      ih hnd.2.1 fun x hx => hC x (List.mem_cons_of_mem y hx), ?_⟩
    intro a ha hb
    obtain ⟨x, hx, hax⟩ := List.mem_flatMap.mp hb
    exact hnd.2.2 ((hC y (List.mem_cons_self y L)).2 a ha)
      (List.mem_flatMap.mpr ⟨x, hx, (hC x (List.mem_cons_of_mem y hx)).2 a hax⟩)

theorem potentialDuplicates_ids_subperm (files : List GoFile) :
    ((getPotentialDuplicates files).flatMap fun b => b.map fun f => f.id).Subperm
      (files.map fun f => f.id) := by
  unfold getPotentialDuplicates
  rw [foldl_append_eq_flatMap potentialBucket, List.nil_append, List.flatMap_assoc]
  refine (flatMap_subperm _ (fun kv => kv.2.map fun f => f.id) _ ?_).trans ?_
  · intro kv _
    unfold potentialBucket
    split
    · simp only [List.flatMap_cons, List.flatMap_nil, List.append_nil]
      exact List.Subperm.refl _
    · simp
  · rw [← List.map_flatMap]
    exact subperm_map _ (groupByKey_flatten_subperm' (fun f => some f.size) files)

theorem buildGroups_inv (h : List Nat → List Nat) (opts : MatchOptions)
    (files : List GoFile) (hnd : (files.map fun f => f.id).Nodup) :
    ((buildGroups h opts files).flatMap memberIds).Nodup ∧
    ∀ g ∈ buildGroups h opts files, g.duplicates.length = g.matchList.length := by
  unfold buildGroups
  rw [foldl_append_eq_flatMap (processFileGroup h opts), List.nil_append]
  have hBids : ((getPotentialDuplicates files).flatMap fun b =>
      b.map fun f => f.id).Nodup :=
    subperm_nodup (potentialDuplicates_ids_subperm files) hnd
  have hbnd : ∀ b ∈ getPotentialDuplicates files, (b.map fun f => f.id).Nodup :=
    nodup_of_flatMap_mem _ _ hBids
  constructor
  · rw [List.flatMap_assoc]
    refine nodup_flatMap_of_sub (fun b => b.map fun f => f.id)
      (fun b => (processFileGroup h opts b).flatMap memberIds) _ hBids ?_
    intro b hb
    have hinv := processFileGroup_inv h opts b (hbnd b hb)
    exact ⟨hinv.1, hinv.2.1⟩
  · intro g hg
    obtain ⟨b, hb, hgb⟩ := List.mem_flatMap.mp hg
    exact (processFileGroup_inv h opts b (hbnd b hb)).2.2 g hgb

/-- Claim C10: in every successful run, in both exact and fuzzy mode,
the member ids of the returned groups (reference plus duplicates) form a
list with no repetitions — each record is in at most one group and all
groups, in particular those from one size bucket, are pairwise
disjoint — and every group has exactly as many matches as duplicates.
The `Nodup` hypothesis renders the pointer distinctness of the scanned
`*fs.File` records. -/
theorem findDuplicates_group_invariants (h : List Nat → List Nat) (e : Engine)
    (files : List GoFile) (he : e.scanner.scanResult = .ok files)
    (hnd : (files.map fun f => f.id).Nodup) :
    (findDuplicates h e).1 = .ok (sortGroups (buildGroups h e.opts files)) ∧
    ((sortGroups (buildGroups h e.opts files)).flatMap memberIds).Nodup ∧
    ∀ g ∈ sortGroups (buildGroups h e.opts files),
      g.duplicates.length = g.matchList.length := by
  have hperm : (sortGroups (buildGroups h e.opts files)).Perm
      (buildGroups h e.opts files) := sortSliceGo_perm groupLtGo _
  have hbase := buildGroups_inv h e.opts files hnd
  refine ⟨?_, ?_, ?_⟩
  · unfold findDuplicates
    rw [he]
  · exact (List.Perm.nodup_iff (hperm.flatMap_right memberIds)).mpr hbase.1
  · intro g hg
    exact hbase.2 g (hperm.mem_iff.mp hg)

theorem findDuplicates_group_invariants_witness :
    ((tiePair 0 ++ tiePair 1).map fun f => f.id).Nodup ∧
    smallSortEngine.scanner.scanResult = .ok (tiePair 0 ++ tiePair 1) ∧
    ((sortGroups (buildGroups id smallSortEngine.opts
      (tiePair 0 ++ tiePair 1))).flatMap memberIds).Nodup :=
  ⟨by decide, rfl,
    (findDuplicates_group_invariants id smallSortEngine (tiePair 0 ++ tiePair 1)
      rfl (by decide)).2.1⟩

end DupeCli
